import Mathlib

/-!
Verification of the `acme` single-header amalgamation tool
(`src/acme/acme.py` of the corrade repository).

Python strings are modelled as `List Char`; Python's tri-state
`True/False/None` values are modelled as `Option Bool`
(`some true` / `some false` / `none`).
-/

set_option maxRecDepth 20000

namespace Acme

abbrev Str := List Char

/-- Converts a Lean string literal to the `List Char` model used throughout. -/
def sl (s : String) : Str := s.toList

/-- Python `pattern in s` (substring containment) for a nonempty pattern. -/
def containsSub (pat : Str) : Str → Bool
  | [] => decide (pat = [])
  | c :: cs => pat.isPrefixOf (c :: cs) || containsSub pat cs

/-- The left-to-right scan of Python `s.replace(pat, repl)`, made structural
on a fuel that bounds the length of `s`; every step either stops on the
empty string or strictly shrinks `s` (for a nonempty `pat`), so any fuel of
at least `s.length` computes the untruncated replacement. -/
def replaceAllGo (pat repl : Str) : Nat → Str → Str
  | 0, s => s
  | Nat.succ n, s =>
    match s with
    | [] => []
    | c :: cs =>
      if pat.isPrefixOf (c :: cs) then
        repl ++ replaceAllGo pat repl n ((c :: cs).drop pat.length)
      else
        c :: replaceAllGo pat repl n cs

/-- Python `s.replace(pat, repl)`: replace all non-overlapping occurrences,
left to right.  (Only ever used with a nonempty `pat`; for an empty `pat`
this is the identity.) -/
def replaceAll (pat repl : Str) (s : Str) : Str :=
  match pat with
  | [] => s
  | _ :: _ => replaceAllGo pat repl s.length s

/-- The directive kinds accepted by `simplify_expression`
(`assert what in ['if', 'ifdef', 'ifndef', 'elif']`). -/
inductive CKind where
  | cif | cifdef | cifndef | celif
  deriving DecidableEq, Repr

/-- The anchored part `defined\((?P<name>[^)]+)\)$` of `alone_defined_rx`:
the whole of `t` must be `defined(` NAME `)` with NAME nonempty and free
of `)`. -/
def parseAloneCore (t : Str) : Option Str :=
  if (sl "defined(").isPrefixOf t then
    let rest := t.drop 8
    let name := rest.takeWhile (fun c => c ≠ ')')
    if name ≠ [] ∧ rest.drop name.length = [')'] then some name else none
  else none

/-- `alone_defined_rx = ^(?P<not>!)?defined\((?P<name>[^)]+)\)$`:
returns (negated, name) when the whole string is a lone
`defined(NAME)` / `!defined(NAME)` atom. -/
def matchAloneDefined (s : Str) : Option (Bool × Str) :=
  if s.head? = some '!' then (parseAloneCore (s.drop 1)).map (fun n => (true, n))
  else (parseAloneCore s).map (fun n => (false, n))

/-- `normalize_expression`: renormalize a lone `defined` atom back to
`ifdef`/`ifndef` form; anything else stays `if`. -/
def normalize_expression (expression : Str) : CKind × Str :=
  match matchAloneDefined expression with
  | some (true, name) => (CKind.cifndef, name)
  | some (false, name) => (CKind.cifdef, name)
  | none => (CKind.cif, expression)

/-- Lines 54-57 of `simplify_expression`: denormalize the `ifdef`/`ifndef`
shorthand into an `if` with a `defined(...)` expression. -/
def denormalize (what : CKind) (expression : Str) : CKind × Str :=
  match what with
  | CKind.cifdef => (CKind.cif, sl "defined(" ++ expression ++ [')'])
  | CKind.cifndef => (CKind.cif, '!' :: sl "defined(" ++ expression ++ [')'])
  | w => (w, expression)

/-- Lines 60-63: replace every `defined(NAME)` of a forced define with `1`/`0`.
The forced-defines dict is modelled as an insertion-ordered association list. -/
def applyForced (fd : List (Str × Bool)) (expression : Str) : Str :=
  fd.foldl
    (fun e nb =>
      if containsSub nb.1 e then
        replaceAll (sl "defined(" ++ nb.1 ++ [')']) [if nb.2 then '1' else '0'] e
      else e)
    expression

/-- Parses `defined(` NAME `)` at the start of `s` (NAME nonempty, no `)`),
returning the full matched text and the remainder. -/
def parseDefined (s : Str) : Option (Str × Str) :=
  if (sl "defined(").isPrefixOf s then
    let rest := s.drop 8
    let name := rest.takeWhile (fun c => c ≠ ')')
    if name ≠ [] ∧ (rest.drop name.length).head? = some ')' then
      some (sl "defined(" ++ name ++ [')'], rest.drop (name.length + 1))
    else none
  else none

/-- The `inside` alternation of `alone_in_parentheses_rx`:
`0 | 1 | !?defined([^)]+)` at the start of `s`. -/
def parseInsideAtom (s : Str) : Option (Str × Str) :=
  match s with
  | '0' :: r => some (['0'], r)
  | '1' :: r => some (['1'], r)
  | '!' :: r => (parseDefined r).map (fun dr => ('!' :: dr.1, dr.2))
  | r => parseDefined r

/-- A match of `alone_in_parentheses_rx = \((0|1|!?defined\([^)]+\))\)`
at the start of `s`: returns (inside, rest-after-match). -/
def tryAloneParen (s : Str) : Option (Str × Str) :=
  if s.head? = some '(' then
    match parseInsideAtom (s.drop 1) with
    | some (ins, rem) =>
      if rem.head? = some ')' then some (ins, rem.drop 1) else none
    | none => none
  else none

/-- Leftmost search for `alone_in_parentheses_rx`; returns the decomposition
`s = pre ++ '(' :: inside ++ ')' :: post`. -/
def findAloneParen : Str → Option (Str × Str × Str)
  | [] => match tryAloneParen [] with
    | some (ins, post) => some ([], ins, post)
    | none => none
  | c :: cs => match tryAloneParen (c :: cs) with
    | some (ins, post) => some ([], ins, post)
    | none => (findAloneParen cs).map (fun piq => (c :: piq.1, piq.2.1, piq.2.2))

/-- Result of matching the trailing group of `zero_and_something_rx` /
`one_or_something_rx`: either a simple atom (`0`, `1`, `!?defined(...)`)
with the rest after the whole match, or a (possibly negated) opening
parenthesis with the rest after the `(`. -/
inductive AfterGroup where
  | atom (g : Str) (rest : Str)
  | paren (negated : Bool) (rest : Str)

/-- The group alternation `(0|1|!?defined\([^)]+\)|!?\()` at the start of `r`. -/
def groupAfter (r : Str) : Option AfterGroup :=
  match r with
  | '0' :: t => some (.atom ['0'] t)
  | '1' :: t => some (.atom ['1'] t)
  | '!' :: t =>
    match parseDefined t with
    | some (d, rem) => some (.atom ('!' :: d) rem)
    | none =>
      if t.head? = some '(' then some (.paren true (t.drop 1)) else none
  | '(' :: u => some (.paren false u)
  | t => (parseDefined t).map (fun dr => AfterGroup.atom dr.1 dr.2)

/-- Leftmost search for `P` (`"0 && "` or `"1 || "`) followed by the group
alternation; returns the text before the match and the group info. -/
def findPrefixAnn (P : Str) : Str → Option (Str × AfterGroup)
  | [] => none
  | c :: cs =>
    match (if P.isPrefixOf (c :: cs) then groupAfter ((c :: cs).drop P.length) else none) with
    | some g => some ([], g)
    | none => (findPrefixAnn P cs).map (fun pg => (c :: pg.1, pg.2))

/-- Result of matching the leading group of `something_and_zero_rx` /
`something_or_one_rx`: a simple atom, or a closing parenthesis. In both
cases `rest` is the text after the whole match (after `" && 0"` / `" || 1"`). -/
inductive BeforeGroup where
  | atom (g : Str) (rest : Str)
  | close (rest : Str)

/-- The group alternation `(0|1|!?defined\([^)]+\)|\))` at the start of `s`,
followed by the literal suffix `S` (`" && 0"` or `" || 1"`). -/
def groupBeforeAt (S : Str) (s : Str) : Option BeforeGroup :=
  match s with
  | '0' :: t => if S.isPrefixOf t then some (.atom ['0'] (t.drop S.length)) else none
  | '1' :: t => if S.isPrefixOf t then some (.atom ['1'] (t.drop S.length)) else none
  | '!' :: t =>
    match parseDefined t with
    | some (d, rem) =>
      if S.isPrefixOf rem then some (.atom ('!' :: d) (rem.drop S.length)) else none
    | none => none
  | ')' :: t => if S.isPrefixOf t then some (.close (t.drop S.length)) else none
  | t =>
    match parseDefined t with
    | some (d, rem) =>
      if S.isPrefixOf rem then some (.atom d (rem.drop S.length)) else none
    | none => none

/-- Leftmost search for the group alternation followed by `S`. -/
def findSuffixAnn (S : Str) : Str → Option (Str × BeforeGroup)
  | [] => none
  | c :: cs =>
    match groupBeforeAt S (c :: cs) with
    | some g => some ([], g)
    | none => (findSuffixAnn S cs).map (fun pg => (c :: pg.1, pg.2))

/-- Lines 102-112: walk right from the match, eating everything up to the
matching close parenthesis. Returns `(body, post)` with
`input = body ++ ')' :: post`. -/
def eatClose (lvl : Nat) : Str → Option (Str × Str)
  | [] => none
  | c :: cs =>
    if c = '(' then (eatClose (lvl + 1) cs).map (fun bp => (c :: bp.1, bp.2))
    else if c = ')' then
      if lvl = 1 then some ([], cs)
      else (eatClose (lvl - 1) cs).map (fun bp => (c :: bp.1, bp.2))
    else (eatClose lvl cs).map (fun bp => (c :: bp.1, bp.2))

/-- Lines 116-129: walk left from the match, eating everything back to the
matching open parenthesis.  The input is the REVERSED text before the `)`;
returns `(rbody, ra)` with `input = rbody ++ '(' :: ra`. -/
def eatOpen (lvl : Nat) : Str → Option (Str × Str)
  | [] => none
  | c :: cs =>
    if c = ')' then (eatOpen (lvl + 1) cs).map (fun bp => (c :: bp.1, bp.2))
    else if c = '(' then
      if lvl = 1 then some ([], cs)
      else (eatOpen (lvl - 1) cs).map (fun bp => (c :: bp.1, bp.2))
    else (eatOpen lvl cs).map (fun bp => (c :: bp.1, bp.2))

/-- One of the six basic textual replacements (lines 71-81): if the pattern
occurs, replace all occurrences and flag the round as modified. -/
def basicStep (pat repl : Str) (sm : Str × Bool) : Str × Bool :=
  if containsSub pat sm.1 then (replaceAll pat repl sm.1, true) else sm

/-- Lines 84-87: remove the parentheses around a lone atom (one leftmost
occurrence per round). -/
def parenStep (sm : Str × Bool) : Str × Bool :=
  match findAloneParen sm.1 with
  | some piq => (piq.1 ++ piq.2.1 ++ piq.2.2, true)
  | none => sm

/-- One `zero_and_something_rx` / `one_or_something_rx` annihilation
(lines 96-113 plus 131-135): the "something" sits to the right.  When the
group is an opening parenthesis whose matching close is missing, the Python
loop falls through leaving the expression unchanged but still flags
`modified` (the stuck case). -/
def annPrefixStep (P : Str) (repl : Char) (sm : Str × Bool) : Str × Bool :=
  match findPrefixAnn P sm.1 with
  | none => sm
  | some (pre, .atom _ rest) => (pre ++ repl :: rest, true)
  | some (pre, .paren _ rest) =>
    match eatClose 1 rest with
    | some bp => (pre ++ repl :: bp.2, true)
    | none => (sm.1, true)

/-- One `something_and_zero_rx` / `something_or_one_rx` annihilation
(lines 96-99 and 114-135): the "something" sits to the left; a `!` directly
before the matching open parenthesis is eaten too. -/
def annSuffixStep (S : Str) (repl : Char) (sm : Str × Bool) : Str × Bool :=
  match findSuffixAnn S sm.1 with
  | none => sm
  | some (pre, .atom _ rest) => (pre ++ repl :: rest, true)
  | some (pre, .close rest) =>
    match eatOpen 1 pre.reverse with
    | some rba =>
      let a := if rba.2.head? = some '!' then (rba.2.drop 1).reverse else rba.2.reverse
      (a ++ repl :: rest, true)
    | none => (sm.1, true)

/-- One iteration of the `while modified` loop of `simplify_expression`
(lines 67-135): the six basic replacements, then lone-atom parenthesis
removal; if anything changed the round restarts (`continue`), otherwise the
four annihilation rewrites are applied in order. -/
def rewriteRound (e : Str) : Str × Bool :=
  let sm := basicStep (sl "!0") (sl "1") (e, false)
  let sm := basicStep (sl "!1") (sl "0") sm
  let sm := basicStep (sl "0 || ") [] sm
  let sm := basicStep (sl " || 0") [] sm
  let sm := basicStep (sl "1 && ") [] sm
  let sm := basicStep (sl " && 1") [] sm
  let sm := parenStep sm
  if sm.2 then sm
  else
    let sm := annPrefixStep (sl "0 && ") '0' sm
    let sm := annSuffixStep (sl " && 0") '0' sm
    let sm := annPrefixStep (sl "1 || ") '1' sm
    let sm := annSuffixStep (sl " || 1") '1' sm
    sm

/-- The `while modified` fixpoint loop, fuelled.  Each productive round
strictly shrinks the expression, so any fuel above the initial length
reaches the fixpoint; a stuck round (possible only on an expression with
unbalanced parentheses, where the Python loop spins forever) keeps the
expression unchanged. -/
def simplifyLoop : Nat → Str → Str
  | 0, e => e
  | fuel + 1, e =>
    match rewriteRound e with
    | (e', true) => simplifyLoop fuel e'
    | (_, false) => e

/-- `simplify_expression` (lines 50-147): denormalize `ifdef`/`ifndef`,
substitute forced defines, rewrite to a fixpoint, classify the result, and
renormalize a lone `defined` atom when the (denormalized) kind is `if`. -/
def simplify_expression (what : CKind) (expression : Str)
    (forced_defines : List (Str × Bool)) : Option Bool × CKind × Str :=
  let we := denormalize what expression
  let e0 := applyForced forced_defines we.2
  let e1 := simplifyLoop (e0.length + 1) e0
  let result : Option Bool :=
    if e1 = sl "0" then some false
    else if e1 = sl "1" then some true
    else none
  let ke := if we.1 = CKind.cif then normalize_expression e1 else (we.1, e1)
  (result, ke.1, ke.2)

/-! ### Soundness of the matchers -/

theorem prefix_decomp {p s : Str} (h : p.isPrefixOf s = true) :
    s = p ++ s.drop p.length := by
  rw [List.isPrefixOf_iff_prefix] at h
  obtain ⟨t, ht⟩ := h
  subst ht
  rw [List.drop_left]

theorem drop_takeWhile_length (p : Char → Bool) (l : Str) :
    l.drop (l.takeWhile p).length = l.dropWhile p := by
  induction l with
  | nil => simp
  | cons c cs ih =>
    by_cases h : p c
    · simp [List.takeWhile_cons, List.dropWhile_cons, h, ih]
    · simp [List.takeWhile_cons, List.dropWhile_cons, h]

theorem head?_decomp {l : Str} {c : Char} (h : l.head? = some c) :
    l = c :: l.drop 1 := by
  cases l with
  | nil => simp at h
  | cons a as => simp_all

theorem prefix_append_drop {p l : Str} (h : p <+: l) :
    l = p ++ l.drop p.length := by
  obtain ⟨t, rfl⟩ := h
  rw [List.drop_left]

theorem takeWhile_self_decomp (p : Char → Bool) (l : Str) :
    l = l.takeWhile p ++ l.drop (l.takeWhile p).length :=
  prefix_append_drop (List.takeWhile_prefix p)

theorem parseDefined_sound {s d r : Str} (h : parseDefined s = some (d, r)) :
    s = d ++ r ∧ d ≠ [] := by
  rw [parseDefined] at h
  split at h
  case isTrue hp =>
    simp only at h
    split at h
    case isTrue hc =>
      simp only [Option.some.injEq, Prod.mk.injEq] at h
      obtain ⟨hd, hr⟩ := h
      have hs : s = sl "defined(" ++ s.drop 8 := by
        have := prefix_decomp hp
        simpa using this
      set rest := s.drop 8 with hrest
      set name := rest.takeWhile (fun c => c ≠ ')') with hname
      have hmid : rest = name ++ rest.drop name.length := by
        rw [hname]
        exact takeWhile_self_decomp _ _
      have hdecomp : rest.drop name.length = ')' :: rest.drop (name.length + 1) := by
        have h1 := head?_decomp hc.2
        rw [h1]
        congr 1
        rw [List.drop_drop, Nat.add_comm]
      constructor
      · rw [hs, ← hd, ← hr]
        conv_lhs => rw [hmid, hdecomp]
        simp
      · rw [← hd]; simp
    case isFalse => exact absurd h (by simp)
  case isFalse => exact absurd h (by simp)

theorem parseAloneCore_sound {t n : Str} (h : parseAloneCore t = some n) :
    t = sl "defined(" ++ n ++ [')'] ∧ n ≠ [] := by
  rw [parseAloneCore] at h
  split at h
  case isTrue hp =>
    simp only at h
    split at h
    case isTrue hc =>
      simp only [Option.some.injEq] at h
      subst h
      have hs : t = sl "defined(" ++ t.drop 8 := by
        have := prefix_decomp hp
        simpa using this
      refine ⟨?_, hc.1⟩
      set rest := t.drop 8 with hrest
      set name := rest.takeWhile (fun c => c ≠ ')') with hname
      have hmid : rest = name ++ rest.drop name.length := by
        rw [hname]
        exact takeWhile_self_decomp _ _
      rw [hc.2] at hmid
      rw [hs]
      conv_lhs => rw [hmid]
      simp
    case isFalse => exact absurd h (by simp)
  case isFalse => exact absurd h (by simp)

theorem matchAloneDefined_sound {s : Str} {neg : Bool} {name : Str}
    (h : matchAloneDefined s = some (neg, name)) :
    s = (if neg then ['!'] else []) ++ sl "defined(" ++ name ++ [')'] ∧
      name ≠ [] := by
  unfold matchAloneDefined at h
  split at h
  case isTrue hb =>
    cases hcore : parseAloneCore (s.drop 1) with
    | none => rw [hcore] at h; simp at h
    | some n =>
      rw [hcore] at h
      simp only [Option.map_some', Option.some.injEq, Prod.mk.injEq] at h
      obtain ⟨hneg, hn⟩ := h
      obtain ⟨ht, hne⟩ := parseAloneCore_sound hcore
      subst hn
      refine ⟨?_, hne⟩
      rw [← hneg]
      simp only [if_true, cond_true]
      rw [head?_decomp hb, ht]
      simp
  case isFalse hb =>
    cases hcore : parseAloneCore s with
    | none => rw [hcore] at h; simp at h
    | some n =>
      rw [hcore] at h
      simp only [Option.map_some', Option.some.injEq, Prod.mk.injEq] at h
      obtain ⟨hneg, hn⟩ := h
      obtain ⟨ht, hne⟩ := parseAloneCore_sound hcore
      subst hn
      refine ⟨?_, hne⟩
      rw [← hneg, ht]
      simp

/-! ### Each rewrite of one round either leaves the expression unchanged or
strictly shrinks it; the modified flag is only ever raised, never cleared. -/

/-- A rewrite step of the fixpoint round either acts as the identity on the
(expression, modified) pair, or raises the modified flag and leaves the
expression unchanged or strictly shorter. -/
def StepOk (f : Str × Bool → Str × Bool) : Prop :=
  ∀ sm, f sm = sm ∨ ((f sm).2 = true ∧ ((f sm).1 = sm.1 ∨ (f sm).1.length < sm.1.length))

theorem StepOk.app {f : Str × Bool → Str × Bool} (hf : StepOk f) {e : Str}
    {sm : Str × Bool} (h1 : sm.2 = false → sm.1 = e)
    (h2 : sm.1 = e ∨ sm.1.length < e.length) :
    ((f sm).2 = false → (f sm).1 = e) ∧
      ((f sm).1 = e ∨ (f sm).1.length < e.length) := by
  rcases hf sm with heq | ⟨hflag, hlen⟩
  · rw [heq]; exact ⟨h1, h2⟩
  · constructor
    · intro hc; rw [hflag] at hc; exact absurd hc (by simp)
    · rcases hlen with hsame | hlt
      · rw [hsame]; exact h2
      · rcases h2 with rfl | h2
        · exact Or.inr hlt
        · exact Or.inr (hlt.trans h2)

theorem replaceAllGo_length_le (pat repl : Str) (hne : pat ≠ [])
    (hr : repl.length ≤ pat.length) :
    ∀ fuel s, (replaceAllGo pat repl fuel s).length ≤ s.length := by
  intro fuel
  induction fuel with
  | zero => intro s; rw [replaceAllGo]
  | succ n ih =>
    intro s
    cases s with
    | nil => rw [replaceAllGo]
    | cons c cs =>
      rw [replaceAllGo]
      split
      case isTrue hp =>
        have hplen : pat.length ≤ (c :: cs).length :=
          (List.isPrefixOf_iff_prefix.mp hp).length_le
        have hpat1 : 1 ≤ pat.length := by
          cases pat with
          | nil => exact absurd rfl hne
          | cons p ps => simp
        have hrec := ih ((c :: cs).drop pat.length)
        rw [List.length_append]
        simp only [List.length_drop] at hrec
        omega
      case isFalse =>
        simp only [List.length_cons]
        have hrec := ih cs
        omega

theorem replaceAllGo_length_lt (pat repl : Str) (hne : pat ≠ [])
    (hr : repl.length < pat.length) :
    ∀ fuel s, s.length ≤ fuel → containsSub pat s = true →
      (replaceAllGo pat repl fuel s).length < s.length := by
  intro fuel
  induction fuel with
  | zero =>
    intro s hs hc
    cases s with
    | nil =>
      unfold containsSub at hc
      simp at hc
      exact absurd hc hne
    | cons c cs => simp at hs
  | succ n ih =>
    intro s hs hc
    cases s with
    | nil =>
      unfold containsSub at hc
      simp at hc
      exact absurd hc hne
    | cons c cs =>
      rw [replaceAllGo]
      split
      case isTrue hp =>
        have hplen : pat.length ≤ (c :: cs).length :=
          (List.isPrefixOf_iff_prefix.mp hp).length_le
        have hrec := replaceAllGo_length_le pat repl hne (Nat.le_of_lt hr)
          n ((c :: cs).drop pat.length)
        rw [List.length_append]
        simp only [List.length_drop] at hrec
        omega
      case isFalse hp =>
        unfold containsSub at hc
        rw [Bool.or_eq_true] at hc
        rcases hc with hc | hc
        · exact absurd hc (by simpa using hp)
        · have := ih cs (by simp at hs; omega) hc
          simp only [List.length_cons]
          omega

theorem basicStep_ok (pat repl : Str) (hne : pat ≠ [])
    (hr : repl.length < pat.length) : StepOk (basicStep pat repl) := by
  intro sm
  unfold basicStep
  split
  case isTrue hc =>
    right
    refine ⟨rfl, Or.inr ?_⟩
    cases hp : pat with
    | nil => exact absurd hp hne
    | cons p ps =>
      subst hp
      rw [replaceAll]
      exact replaceAllGo_length_lt _ repl hne hr sm.1.length sm.1 le_rfl hc
  case isFalse => left; rfl

theorem parseInsideAtom_sound {s g r : Str} (h : parseInsideAtom s = some (g, r)) :
    s = g ++ r ∧ g ≠ [] := by
  unfold parseInsideAtom at h
  split at h
  · simp only [Option.some.injEq, Prod.mk.injEq] at h
    obtain ⟨rfl, rfl⟩ := h
    exact ⟨rfl, by simp⟩
  · simp only [Option.some.injEq, Prod.mk.injEq] at h
    obtain ⟨rfl, rfl⟩ := h
    exact ⟨rfl, by simp⟩
  case h_3 t =>
    cases hd : parseDefined t with
    | none => rw [hd] at h; simp at h
    | some dr =>
      obtain ⟨d2, r2⟩ := dr
      rw [hd] at h
      simp only [Option.map_some', Option.some.injEq, Prod.mk.injEq] at h
      obtain ⟨rfl, rfl⟩ := h
      obtain ⟨ht, _⟩ := parseDefined_sound hd
      exact ⟨by rw [ht]; simp, by simp⟩
  case h_4 =>
    cases hd : parseDefined s with
    | none => rw [hd] at h; simp at h
    | some dr =>
      obtain ⟨d2, r2⟩ := dr
      rw [hd] at h
      simp only [Option.map_some', Option.some.injEq, Prod.mk.injEq] at h
      obtain ⟨rfl, rfl⟩ := h
      exact parseDefined_sound hd

theorem tryAloneParen_sound {s ins post : Str}
    (h : tryAloneParen s = some (ins, post)) :
    s = '(' :: (ins ++ ')' :: post) := by
  unfold tryAloneParen at h
  split at h
  case isTrue hhead =>
    cases hp : parseInsideAtom (s.drop 1) with
    | none => rw [hp] at h; simp at h
    | some ir =>
      obtain ⟨ins2, rem⟩ := ir
      rw [hp] at h
      simp only at h
      split at h
      case isTrue hrem =>
        simp only [Option.some.injEq, Prod.mk.injEq] at h
        obtain ⟨rfl, rfl⟩ := h
        obtain ⟨hr, _⟩ := parseInsideAtom_sound hp
        have hsd : s = '(' :: s.drop 1 := head?_decomp hhead
        have hrd : rem = ')' :: rem.drop 1 := head?_decomp hrem
        rw [hsd]
        congr 1
        rw [hr]
        conv_lhs => rw [hrd]
      case isFalse => exact absurd h (by simp)
  case isFalse => exact absurd h (by simp)

theorem findAloneParen_sound :
    ∀ {s pre ins post : Str}, findAloneParen s = some (pre, ins, post) →
      s = pre ++ '(' :: (ins ++ ')' :: post) := by
  intro s
  induction s with
  | nil =>
    intro pre ins post h
    rw [findAloneParen] at h
    simp [tryAloneParen] at h
  | cons c cs ih =>
    intro pre ins post h
    rw [findAloneParen] at h
    cases ht : tryAloneParen (c :: cs) with
    | some ip =>
      obtain ⟨ins2, post2⟩ := ip
      rw [ht] at h
      simp only [Option.some.injEq, Prod.mk.injEq] at h
      obtain ⟨rfl, rfl, rfl⟩ := h
      exact tryAloneParen_sound ht
    | none =>
      rw [ht] at h
      cases hf : findAloneParen cs with
      | none => rw [hf] at h; simp at h
      | some piq =>
        obtain ⟨p2, i2, q2⟩ := piq
        rw [hf] at h
        simp only [Option.map_some', Option.some.injEq, Prod.mk.injEq] at h
        obtain ⟨rfl, rfl, rfl⟩ := h
        have := ih hf
        rw [List.cons_append]
        exact congrArg (c :: ·) this

theorem parenStep_ok : StepOk parenStep := by
  intro sm
  unfold parenStep
  cases hf : findAloneParen sm.1 with
  | none => left; rfl
  | some piq =>
    obtain ⟨p2, i2, q2⟩ := piq
    right
    refine ⟨rfl, Or.inr ?_⟩
    have hs := findAloneParen_sound hf
    rw [hs]
    simp
    omega

theorem groupAfter_sound {r : Str} {ag : AfterGroup} (h : groupAfter r = some ag) :
    (∃ g rest, ag = .atom g rest ∧ r = g ++ rest ∧ g ≠ []) ∨
    (∃ neg rest, ag = .paren neg rest ∧
      r = (if neg then ['!', '('] else ['(']) ++ rest) := by
  unfold groupAfter at h
  split at h
  case h_1 t =>
    left
    simp only [Option.some.injEq] at h
    exact ⟨['0'], t, h.symm, rfl, by simp⟩
  case h_2 t =>
    left
    simp only [Option.some.injEq] at h
    exact ⟨['1'], t, h.symm, rfl, by simp⟩
  case h_3 t =>
    cases hd : parseDefined t with
    | some dr =>
      obtain ⟨d2, rem⟩ := dr
      rw [hd] at h
      simp only [Option.some.injEq] at h
      left
      obtain ⟨ht, _⟩ := parseDefined_sound hd
      exact ⟨'!' :: d2, rem, h.symm, by rw [ht]; rfl, by simp⟩
    | none =>
      simp only [hd] at h
      right
      by_cases hhd : t.head? = some '('
      · rw [if_pos hhd] at h
        simp only [Option.some.injEq] at h
        refine ⟨true, t.drop 1, h.symm, ?_⟩
        conv_lhs => rw [head?_decomp hhd]
        simp
      · rw [if_neg hhd] at h
        simp at h
  case h_4 u =>
    right
    simp only [Option.some.injEq] at h
    exact ⟨false, u, h.symm, by simp⟩
  case h_5 hn1 hn2 hn3 hn4 =>
    cases hd : parseDefined r with
    | some dr =>
      obtain ⟨d2, rem⟩ := dr
      rw [hd] at h
      simp only [Option.map_some', Option.some.injEq] at h
      left
      obtain ⟨ht, hne⟩ := parseDefined_sound hd
      exact ⟨d2, rem, h.symm, ht, hne⟩
    | none => rw [hd] at h; simp at h

theorem findPrefixAnn_sound (P : Str) :
    ∀ {s : Str} {pre : Str} {ag : AfterGroup},
      findPrefixAnn P s = some (pre, ag) →
      ∃ r, s = pre ++ P ++ r ∧ groupAfter r = some ag := by
  intro s
  induction s with
  | nil => intro pre ag h; rw [findPrefixAnn] at h; simp at h
  | cons c cs ih =>
    intro pre ag h
    rw [findPrefixAnn] at h
    cases hm : (if P.isPrefixOf (c :: cs) then groupAfter ((c :: cs).drop P.length)
        else none) with
    | some g =>
      rw [hm] at h
      simp only [Option.some.injEq, Prod.mk.injEq] at h
      obtain ⟨rfl, rfl⟩ := h
      split at hm
      case isTrue hp =>
        exact ⟨(c :: cs).drop P.length, by simpa using prefix_decomp hp, hm⟩
      case isFalse => exact absurd hm (by simp)
    | none =>
      rw [hm] at h
      cases hf : findPrefixAnn P cs with
      | none => rw [hf] at h; simp at h
      | some pg =>
        obtain ⟨pre2, ag2⟩ := pg
        rw [hf] at h
        simp only [Option.map_some', Option.some.injEq, Prod.mk.injEq] at h
        obtain ⟨rfl, rfl⟩ := h
        obtain ⟨r, hr, hg⟩ := ih hf
        exact ⟨r, by rw [List.cons_append]; exact congrArg (c :: ·) hr, hg⟩

theorem eatClose_sound :
    ∀ {s : Str} {lvl : Nat} {b p : Str}, eatClose lvl s = some (b, p) →
      s = b ++ ')' :: p := by
  intro s
  induction s with
  | nil => intro lvl b p h; rw [eatClose] at h; simp at h
  | cons c cs ih =>
    intro lvl b p h
    rw [eatClose] at h
    split at h
    case isTrue hc =>
      cases hf : eatClose (lvl + 1) cs with
      | none => rw [hf] at h; simp at h
      | some bp =>
        obtain ⟨b2, p2⟩ := bp
        rw [hf] at h
        simp only [Option.map_some', Option.some.injEq, Prod.mk.injEq] at h
        obtain ⟨rfl, rfl⟩ := h
        rw [List.cons_append]
        exact congrArg (c :: ·) (ih hf)
    case isFalse hc =>
      split at h
      case isTrue hcr =>
        split at h
        case isTrue hl =>
          simp only [Option.some.injEq, Prod.mk.injEq] at h
          obtain ⟨rfl, rfl⟩ := h
          rw [hcr]
          simp
        case isFalse hl =>
          cases hf : eatClose (lvl - 1) cs with
          | none => rw [hf] at h; simp at h
          | some bp =>
            obtain ⟨b2, p2⟩ := bp
            rw [hf] at h
            simp only [Option.map_some', Option.some.injEq, Prod.mk.injEq] at h
            obtain ⟨rfl, rfl⟩ := h
            rw [List.cons_append]
            exact congrArg (c :: ·) (ih hf)
      case isFalse hcr =>
        cases hf : eatClose lvl cs with
        | none => rw [hf] at h; simp at h
        | some bp =>
          obtain ⟨b2, p2⟩ := bp
          rw [hf] at h
          simp only [Option.map_some', Option.some.injEq, Prod.mk.injEq] at h
          obtain ⟨rfl, rfl⟩ := h
          rw [List.cons_append]
          exact congrArg (c :: ·) (ih hf)

theorem annPrefixStep_ok (P : Str) (r : Char) (hP : P ≠ []) :
    StepOk (annPrefixStep P r) := by
  intro sm
  rcases hf : findPrefixAnn P sm.1 with _ | ⟨pre, ag⟩
  · left
    simp only [annPrefixStep, hf]
  · rcases ag with ⟨g, rest⟩ | ⟨neg, rest⟩
    · have hres : annPrefixStep P r sm = (pre ++ r :: rest, true) := by
        simp only [annPrefixStep, hf]
      rw [hres]
      right
      refine ⟨rfl, Or.inr ?_⟩
      obtain ⟨rr, hs, hg⟩ := findPrefixAnn_sound P hf
      rcases groupAfter_sound hg with ⟨g2, rest2, heq, hrr, hne⟩ | ⟨neg2, rest2, heq, hrr⟩
      · cases heq
        have h1 : 1 ≤ P.length := by
          cases P with
          | nil => exact absurd rfl hP
          | cons x xs => simp
        have h2 : 1 ≤ g.length := by
          cases g with
          | nil => exact absurd rfl hne
          | cons x xs => simp
        rw [hs, hrr]
        simp
        omega
      · exact absurd heq (by simp)
    · rcases he : eatClose 1 rest with _ | ⟨b2, p2⟩
      · have hres : annPrefixStep P r sm = (sm.1, true) := by
          simp only [annPrefixStep, hf, he]
        rw [hres]
        right
        exact ⟨rfl, Or.inl rfl⟩
      · have hres : annPrefixStep P r sm = (pre ++ r :: p2, true) := by
          simp only [annPrefixStep, hf, he]
        rw [hres]
        right
        refine ⟨rfl, Or.inr ?_⟩
        obtain ⟨rr, hs, hg⟩ := findPrefixAnn_sound P hf
        rcases groupAfter_sound hg with ⟨g2, rest2, heq, hrr, hne⟩ | ⟨neg2, rest2, heq, hrr⟩
        · exact absurd heq (by simp)
        · cases heq
          have hrest := eatClose_sound he
          rw [hs, hrr, hrest]
          cases neg <;> simp <;> omega

theorem groupBeforeAt_sound {S s : Str} {bg : BeforeGroup}
    (h : groupBeforeAt S s = some bg) :
    (∃ g rest, bg = .atom g rest ∧ s = g ++ S ++ rest ∧ g ≠ []) ∨
    (∃ rest, bg = .close rest ∧ s = ')' :: (S ++ rest)) := by
  unfold groupBeforeAt at h
  split at h
  case h_1 t =>
    left
    split at h
    case isTrue hp =>
      simp only [Option.some.injEq] at h
      exact ⟨['0'], t.drop S.length, h.symm,
        by rw [List.cons_append]; exact congrArg ('0' :: ·) (prefix_decomp hp), by simp⟩
    case isFalse => exact absurd h (by simp)
  case h_2 t =>
    left
    split at h
    case isTrue hp =>
      simp only [Option.some.injEq] at h
      exact ⟨['1'], t.drop S.length, h.symm,
        by rw [List.cons_append]; exact congrArg ('1' :: ·) (prefix_decomp hp), by simp⟩
    case isFalse => exact absurd h (by simp)
  case h_3 t =>
    cases hd : parseDefined t with
    | some dr =>
      obtain ⟨d2, rem⟩ := dr
      simp only [hd] at h
      split at h
      case isTrue hp =>
        simp only [Option.some.injEq] at h
        left
        obtain ⟨ht, _⟩ := parseDefined_sound hd
        refine ⟨'!' :: d2, rem.drop S.length, h.symm, ?_, by simp⟩
        rw [ht, prefix_decomp hp]
        simp
      case isFalse => exact absurd h (by simp)
    | none =>
      simp only [hd] at h
      exact absurd h (by simp)
  case h_4 t =>
    right
    split at h
    case isTrue hp =>
      simp only [Option.some.injEq] at h
      exact ⟨t.drop S.length, h.symm,
        congrArg (')' :: ·) (prefix_decomp hp)⟩
    case isFalse => exact absurd h (by simp)
  case h_5 hn1 hn2 hn3 hn4 =>
    cases hd : parseDefined s with
    | some dr =>
      obtain ⟨d2, rem⟩ := dr
      simp only [hd] at h
      split at h
      case isTrue hp =>
        simp only [Option.some.injEq] at h
        left
        obtain ⟨ht, hne⟩ := parseDefined_sound hd
        refine ⟨d2, rem.drop S.length, h.symm, ?_, hne⟩
        rw [ht, prefix_decomp hp]
        simp
      case isFalse => exact absurd h (by simp)
    | none =>
      simp only [hd] at h
      exact absurd h (by simp)

theorem findSuffixAnn_sound (S : Str) :
    ∀ {s : Str} {pre : Str} {bg : BeforeGroup},
      findSuffixAnn S s = some (pre, bg) →
      ∃ s2, s = pre ++ s2 ∧ groupBeforeAt S s2 = some bg := by
  intro s
  induction s with
  | nil => intro pre bg h; rw [findSuffixAnn] at h; simp at h
  | cons c cs ih =>
    intro pre bg h
    rw [findSuffixAnn] at h
    cases hm : groupBeforeAt S (c :: cs) with
    | some g =>
      rw [hm] at h
      simp only [Option.some.injEq, Prod.mk.injEq] at h
      obtain ⟨rfl, rfl⟩ := h
      exact ⟨c :: cs, rfl, hm⟩
    | none =>
      rw [hm] at h
      cases hf : findSuffixAnn S cs with
      | none => rw [hf] at h; simp at h
      | some pg =>
        obtain ⟨pre2, bg2⟩ := pg
        rw [hf] at h
        simp only [Option.map_some', Option.some.injEq, Prod.mk.injEq] at h
        obtain ⟨rfl, rfl⟩ := h
        obtain ⟨s2, hs2, hg⟩ := ih hf
        exact ⟨s2, by rw [List.cons_append]; exact congrArg (c :: ·) hs2, hg⟩

theorem eatOpen_sound :
    ∀ {s : Str} {lvl : Nat} {b p : Str}, eatOpen lvl s = some (b, p) →
      s = b ++ '(' :: p := by
  intro s
  induction s with
  | nil => intro lvl b p h; rw [eatOpen] at h; simp at h
  | cons c cs ih =>
    intro lvl b p h
    rw [eatOpen] at h
    split at h
    case isTrue hc =>
      cases hf : eatOpen (lvl + 1) cs with
      | none => rw [hf] at h; simp at h
      | some bp =>
        obtain ⟨b2, p2⟩ := bp
        rw [hf] at h
        simp only [Option.map_some', Option.some.injEq, Prod.mk.injEq] at h
        obtain ⟨rfl, rfl⟩ := h
        rw [List.cons_append]
        exact congrArg (c :: ·) (ih hf)
    case isFalse hc =>
      split at h
      case isTrue hcr =>
        split at h
        case isTrue hl =>
          simp only [Option.some.injEq, Prod.mk.injEq] at h
          obtain ⟨rfl, rfl⟩ := h
          rw [hcr]
          simp
        case isFalse hl =>
          cases hf : eatOpen (lvl - 1) cs with
          | none => rw [hf] at h; simp at h
          | some bp =>
            obtain ⟨b2, p2⟩ := bp
            rw [hf] at h
            simp only [Option.map_some', Option.some.injEq, Prod.mk.injEq] at h
            obtain ⟨rfl, rfl⟩ := h
            rw [List.cons_append]
            exact congrArg (c :: ·) (ih hf)
      case isFalse hcr =>
        cases hf : eatOpen lvl cs with
        | none => rw [hf] at h; simp at h
        | some bp =>
          obtain ⟨b2, p2⟩ := bp
          rw [hf] at h
          simp only [Option.map_some', Option.some.injEq, Prod.mk.injEq] at h
          obtain ⟨rfl, rfl⟩ := h
          rw [List.cons_append]
          exact congrArg (c :: ·) (ih hf)

theorem annSuffixStep_ok (S : Str) (r : Char) (hS : S ≠ []) :
    StepOk (annSuffixStep S r) := by
  intro sm
  rcases hf : findSuffixAnn S sm.1 with _ | ⟨pre, bg⟩
  · left
    simp only [annSuffixStep, hf]
  · rcases bg with ⟨g, rest⟩ | ⟨rest⟩
    · have hres : annSuffixStep S r sm = (pre ++ r :: rest, true) := by
        simp only [annSuffixStep, hf]
      rw [hres]
      right
      refine ⟨rfl, Or.inr ?_⟩
      obtain ⟨s2, hs, hg⟩ := findSuffixAnn_sound S hf
      rcases groupBeforeAt_sound hg with ⟨g2, rest2, heq, hs2, hne⟩ | ⟨rest2, heq, hs2⟩
      · cases heq
        have h1 : 1 ≤ S.length := by
          cases S with
          | nil => exact absurd rfl hS
          | cons x xs => simp
        have h2 : 1 ≤ g.length := by
          cases g with
          | nil => exact absurd rfl hne
          | cons x xs => simp
        rw [hs, hs2]
        simp
        omega
      · exact absurd heq (by simp)
    · rcases he : eatOpen 1 pre.reverse with _ | ⟨rb, ra⟩
      · have hres : annSuffixStep S r sm = (sm.1, true) := by
          simp only [annSuffixStep, hf, he]
        rw [hres]
        right
        exact ⟨rfl, Or.inl rfl⟩
      · have hres : annSuffixStep S r sm =
            ((if ra.head? = some '!' then (ra.drop 1).reverse else ra.reverse)
              ++ r :: rest, true) := by
          simp only [annSuffixStep, hf, he]
        rw [hres]
        right
        refine ⟨rfl, Or.inr ?_⟩
        obtain ⟨s2, hs, hg⟩ := findSuffixAnn_sound S hf
        rcases groupBeforeAt_sound hg with ⟨g2, rest2, heq, hs2, hne⟩ | ⟨rest2, heq, hs2⟩
        · exact absurd heq (by simp)
        · cases heq
          have hpre : pre.reverse = rb ++ '(' :: ra := eatOpen_sound he
          have hprelen : pre.length = rb.length + 1 + ra.length := by
            have := congrArg List.length hpre
            simpa [Nat.add_comm, Nat.add_assoc, Nat.add_left_comm] using this
          have halen : (if ra.head? = some '!' then (ra.drop 1).reverse
              else ra.reverse).length ≤ ra.length := by
            split
            · simp
            · simp
          rw [hs, hs2]
          simp at halen ⊢
          omega

theorem rewriteRound_spec (e : Str) :
    ((rewriteRound e).2 = false → (rewriteRound e).1 = e) ∧
    ((rewriteRound e).1 = e ∨ (rewriteRound e).1.length < e.length) := by
  have s0a : (((e, false) : Str × Bool)).2 = false → (((e, false) : Str × Bool)).1 = e :=
    fun _ => rfl
  have s0b : (((e, false) : Str × Bool)).1 = e ∨
      (((e, false) : Str × Bool)).1.length < e.length := Or.inl rfl
  have s1 := StepOk.app (basicStep_ok (sl "!0") (sl "1") (by decide) (by decide)) s0a s0b
  have s2 := StepOk.app (basicStep_ok (sl "!1") (sl "0") (by decide) (by decide)) s1.1 s1.2
  have s3 := StepOk.app (basicStep_ok (sl "0 || ") [] (by decide) (by decide)) s2.1 s2.2
  have s4 := StepOk.app (basicStep_ok (sl " || 0") [] (by decide) (by decide)) s3.1 s3.2
  have s5 := StepOk.app (basicStep_ok (sl "1 && ") [] (by decide) (by decide)) s4.1 s4.2
  have s6 := StepOk.app (basicStep_ok (sl " && 1") [] (by decide) (by decide)) s5.1 s5.2
  have s7 := StepOk.app parenStep_ok s6.1 s6.2
  have s8 := StepOk.app (annPrefixStep_ok (sl "0 && ") '0' (by decide)) s7.1 s7.2
  have s9 := StepOk.app (annSuffixStep_ok (sl " && 0") '0' (by decide)) s8.1 s8.2
  have s10 := StepOk.app (annPrefixStep_ok (sl "1 || ") '1' (by decide)) s9.1 s9.2
  have s11 := StepOk.app (annSuffixStep_ok (sl " || 1") '1' (by decide)) s10.1 s10.2
  rw [rewriteRound]
  split
  · exact s7
  · exact s11

/-- An expression on which one round of the rewrite system makes no textual
change (the modified flag may still be raised in the stuck unbalanced-
parenthesis case, where the Python loop never terminates). -/
def rrStable (e : Str) : Prop := (rewriteRound e).1 = e

theorem simplifyLoop_of_stuck {e : Str} (h : rewriteRound e = (e, true)) :
    ∀ fuel, simplifyLoop fuel e = e := by
  intro fuel
  induction fuel with
  | zero => rw [simplifyLoop]
  | succ n ih =>
    rw [simplifyLoop, h]
    exact ih

theorem simplifyLoop_stable {fuel : Nat} :
    ∀ {e : Str}, e.length < fuel → rrStable (simplifyLoop fuel e) := by
  induction fuel with
  | zero => intro e h; exact absurd h (by omega)
  | succ n ih =>
    intro e h
    rw [simplifyLoop]
    rcases hr : rewriteRound e with ⟨e2, m⟩
    cases m
    · simp only
      have := (rewriteRound_spec e).1
      rw [hr] at this
      have he2 : e2 = e := this rfl
      unfold rrStable
      rw [hr, he2]
    · simp only
      rcases (rewriteRound_spec e).2 with hsame | hlt
      · rw [hr] at hsame
        simp only at hsame
        subst hsame
        rw [simplifyLoop_of_stuck (by rw [hr])]
        unfold rrStable
        rw [hr]
      · rw [hr] at hlt
        simp only at hlt
        exact ih (by omega)

theorem simplifyLoop_of_stable {e : Str} (h : rrStable e) :
    ∀ fuel, simplifyLoop fuel e = e := by
  intro fuel
  cases fuel with
  | zero => rw [simplifyLoop]
  | succ n =>
    rcases hr : rewriteRound e with ⟨e2, m⟩
    have he2 : e2 = e := by
      have := h
      unfold rrStable at this
      rw [hr] at this
      exact this
    subst he2
    cases m
    · rw [simplifyLoop, hr]
    · exact simplifyLoop_of_stuck hr (n + 1)

/-- The expression after the fixpoint rewriting inside `simplify_expression`
(denormalize, substitute forced defines, rewrite to a fixpoint). -/
def finalExpr (what : CKind) (expression : Str) (fd : List (Str × Bool)) : Str :=
  simplifyLoop ((applyForced fd (denormalize what expression).2).length + 1)
    (applyForced fd (denormalize what expression).2)

theorem simplify_expression_eval (what : CKind) (e : Str) (fd : List (Str × Bool)) :
    simplify_expression what e fd =
      ((if finalExpr what e fd = sl "0" then some false
        else if finalExpr what e fd = sl "1" then some true else none),
       (if (denormalize what e).1 = CKind.cif
          then normalize_expression (finalExpr what e fd)
          else ((denormalize what e).1, finalExpr what e fd))) := rfl

theorem finalExpr_stable (what : CKind) (e : Str) (fd : List (Str × Bool)) :
    rrStable (finalExpr what e fd) := by
  unfold finalExpr
  exact simplifyLoop_stable (by omega)

/-- Evaluating `simplify_expression` on an input whose expression part is
already a rewrite fixpoint and untouched by the forced-defines
substitution. -/
theorem simplify_expression_stable_eval (k : CKind) (e2 : Str)
    (fd : List (Str × Bool)) (F : Str)
    (hden : (denormalize k e2).2 = F)
    (hforced : applyForced fd F = F)
    (hstable : rrStable F) :
    simplify_expression k e2 fd =
      ((if F = sl "0" then some false
        else if F = sl "1" then some true else none),
       (if (denormalize k e2).1 = CKind.cif
          then normalize_expression F
          else ((denormalize k e2).1, F))) := by
  have hF2 : finalExpr k e2 fd = F := by
    unfold finalExpr
    rw [hden, hforced]
    exact simplifyLoop_of_stable hstable _
  rw [simplify_expression_eval, hF2]

/-- Claim C1: the expression simplifier, given directive kind `elif`,
expression `!(0 || defined(A)) && (defined(B) && 1)` and forced defines
mapping `A` to false, returns `(unknown, elif, "defined(B)")`; and in
general, after the fixpoint rewriting, a final expression of exactly `0`
yields result false, exactly `1` yields result true, and anything else
yields result unknown with the expression kept (renormalized via
`normalize_expression` exactly when the denormalized kind is `if`). -/
theorem C1_simplify_expression_classification :
    (simplify_expression .celif (sl "!(0 || defined(A)) && (defined(B) && 1)")
        [(sl "A", false)] = (none, .celif, sl "defined(B)")) ∧
    (∀ (what : CKind) (e : Str) (fd : List (Str × Bool)),
      ((simplify_expression what e fd).1 = some false ↔ finalExpr what e fd = sl "0") ∧
      ((simplify_expression what e fd).1 = some true ↔ finalExpr what e fd = sl "1") ∧
      ((simplify_expression what e fd).1 = none ↔
        (finalExpr what e fd ≠ sl "0" ∧ finalExpr what e fd ≠ sl "1")) ∧
      (simplify_expression what e fd).2 =
        (if (denormalize what e).1 = CKind.cif
          then normalize_expression (finalExpr what e fd)
          else ((denormalize what e).1, finalExpr what e fd))) := by
  constructor
  · decide
  · intro what e fd
    rw [simplify_expression_eval]
    by_cases h0 : finalExpr what e fd = sl "0"
    · rw [if_pos h0]
      simp [h0]
      decide
    · rw [if_neg h0]
      by_cases h1 : finalExpr what e fd = sl "1"
      · rw [if_pos h1]
        simp [h0, h1]
        decide
      · rw [if_neg h1]
        simp [h0, h1]

/-- Claim C2 (counterexample): the expression simplifier is not idempotent
for every input.  On kind `if`, expression `defi1 && ned(X)` and forced
defines mapping `X` to false, the first run rewrites the text to
`defined(X)` (the `1 && ` fold glues the fragments together) and returns
`(unknown, ifdef, "X")`; feeding that output back in substitutes the now
visible `defined(X)` and returns `(false, if, "0")` instead. -/
theorem C2_simplify_expression_not_idempotent :
    simplify_expression .cif (sl "defi1 && ned(X)") [(sl "X", false)]
        = (none, .cifdef, sl "X") ∧
    simplify_expression .cifdef (sl "X") [(sl "X", false)]
        = (some false, .cif, sl "0") ∧
    (some false, CKind.cif, sl "0") ≠
      ((none : Option Bool), CKind.cifdef, sl "X") := by
  refine ⟨by decide, by decide, by decide⟩

section
attribute [local irreducible] rewriteRound simplifyLoop finalExpr

/-- Claim C2 (amended): the expression simplifier is idempotent on its own
output whenever the forced-defines substitution does not touch the
(denormalized) output expression — in particular always when the
forced-defines map is empty.  Re-running `simplify_expression` on the output
kind and expression then returns the same `(result, kind, expression)`
triple. -/
theorem C2_simplify_expression_idempotent_of_forced_noop
    (what : CKind) (e : Str) (fd : List (Str × Bool))
    (r : Option Bool) (k : CKind) (e2 : Str)
    (hrun : simplify_expression what e fd = (r, k, e2))
    (hforced : applyForced fd (denormalize k e2).2 = (denormalize k e2).2) :
    simplify_expression k e2 fd = (r, k, e2) := by
  have key := simplify_expression_eval what e fd
  rw [hrun] at key
  set F := finalExpr what e fd with hFdef
  have hstable : rrStable F := finalExpr_stable what e fd
  have hr : r = (if F = sl "0" then some false
      else if F = sl "1" then some true else none) := congrArg Prod.fst key
  have hke : (k, e2) = (if (denormalize what e).1 = CKind.cif
      then normalize_expression F else ((denormalize what e).1, F)) :=
    congrArg Prod.snd key
  by_cases hcif : (denormalize what e).1 = CKind.cif
  · rw [if_pos hcif] at hke
    cases hm : matchAloneDefined F with
    | none =>
      have hnorm : normalize_expression F = (CKind.cif, F) := by
        unfold normalize_expression
        rw [hm]
      rw [hnorm] at hke
      have hk : k = CKind.cif := congrArg Prod.fst hke
      have he2 : e2 = F := congrArg Prod.snd hke
      have hden : (denormalize k e2).2 = F := by rw [hk, he2]; rfl
      have hden1 : (denormalize k e2).1 = CKind.cif := by rw [hk]; rfl
      rw [hden] at hforced
      have heval := simplify_expression_stable_eval k e2 fd F hden hforced hstable
      rw [heval, if_pos hden1, hnorm, ← hr, ← hk, ← he2]
    | some pair =>
      obtain ⟨neg, name⟩ := pair
      have hnorm : normalize_expression F =
          ((if neg then CKind.cifndef else CKind.cifdef), name) := by
        unfold normalize_expression
        rw [hm]
        cases neg <;> rfl
      rw [hnorm] at hke
      have hk : k = if neg then CKind.cifndef else CKind.cifdef :=
        congrArg Prod.fst hke
      have he2 : e2 = name := congrArg Prod.snd hke
      obtain ⟨hFdecomp, hname⟩ := matchAloneDefined_sound hm
      have hden : (denormalize k e2).2 = F := by
        rw [hk, he2]
        conv_rhs => rw [hFdecomp]
        cases neg
        · simp [denormalize]
        · simp [denormalize]
      have hden1 : (denormalize k e2).1 = CKind.cif := by
        rw [hk]
        cases neg <;> simp [denormalize]
      rw [hden] at hforced
      have heval := simplify_expression_stable_eval k e2 fd F hden hforced hstable
      rw [heval, if_pos hden1, hnorm, ← hr, ← hk, ← he2]
  · rw [if_neg hcif] at hke
    have hk : k = (denormalize what e).1 := congrArg Prod.fst hke
    have he2 : e2 = F := congrArg Prod.snd hke
    have hkcelif : k = CKind.celif := by
      rw [hk]
      cases what <;> simp [denormalize] at hcif ⊢
    have hden : (denormalize k e2).2 = F := by rw [hkcelif, he2]; rfl
    have hden1 : (denormalize k e2).1 = CKind.celif := by rw [hkcelif]; rfl
    rw [hden] at hforced
    have heval := simplify_expression_stable_eval k e2 fd F hden hforced hstable
    have hnotcif : ¬((denormalize k e2).1 = CKind.cif) := by
      rw [hden1]
      decide
    rw [heval, if_neg hnotcif, hden1, ← hr, ← hkcelif, ← he2]

end

/-- Witness for the amended C2 theorem: a concrete run whose hypotheses are
satisfied (the forced define `A` does not occur in the output expression). -/
theorem C2_simplify_expression_idempotent_witness :
    simplify_expression .cifdef (sl "B") [(sl "A", false)] =
      ((none : Option Bool), CKind.cifdef, sl "B") ∧
    simplify_expression .cifdef (sl "B") [(sl "A", false)] =
      ((none : Option Bool), CKind.cifdef, sl "B") :=
  ⟨by decide,
    C2_simplify_expression_idempotent_of_forced_noop .cifdef (sl "B")
      [(sl "A", false)] none .cifdef (sl "B") (by decide) (by decide)⟩

/-! ### sort_includes (lines 149-155) -/

/-- Python string comparison: lexicographic by code point. -/
def pyStrLe : Str → Str → Bool
  | [], _ => true
  | _ :: _, [] => false
  | a :: as, b :: bs => if a = b then pyStrLe as bs else decide (a < b)

/-- The ordering used by Python `sorted` on strings. -/
def pyLe (a b : Str) : Prop := pyStrLe a b = true

instance : DecidableRel pyLe := fun a b => by
  unfold pyLe
  infer_instance

/-- The classification loop of `sort_includes`: partition the (sorted) list
into `#include <...>` and `#include "..."` entries in order; any other
entry hits `assert False`. -/
def classifyIncludes : List Str → Option (List Str × List Str)
  | [] => some ([], [])
  | i :: rest =>
    if (sl "#include <").isPrefixOf i then
      (classifyIncludes rest).map (fun sysloc => (i :: sysloc.1, sysloc.2))
    else if (sl "#include \"").isPrefixOf i then
      (classifyIncludes rest).map (fun sysloc => (sysloc.1, i :: sysloc.2))
    else none

/-- `sort_includes`: sort, partition into system/local, and join with one
blank line exactly when both groups are nonempty.  The `assert False`
branch for an entry of any other shape is modelled as `none`. -/
def sort_includes (includes : List Str) : Option (List Str) :=
  match classifyIncludes (List.insertionSort pyLe includes) with
  | none => none
  | some sysloc =>
    some (if sysloc.2 ≠ [] ∧ sysloc.1 ≠ []
      then sysloc.1 ++ [['\n']] ++ sysloc.2
      else sysloc.1 ++ sysloc.2)

theorem pyStrLe_total : ∀ a b : Str, pyStrLe a b = true ∨ pyStrLe b a = true := by
  intro a
  induction a with
  | nil => intro b; left; rw [pyStrLe]
  | cons x xs ih =>
    intro b
    cases b with
    | nil => right; rw [pyStrLe]
    | cons y ys =>
      by_cases hxy : x = y
      · subst hxy
        rcases ih ys with h | h
        · left; rw [pyStrLe, if_pos rfl]; exact h
        · right; rw [pyStrLe, if_pos rfl]; exact h
      · rcases lt_or_gt_of_ne hxy with h | h
        · left
          rw [pyStrLe, if_neg hxy]
          exact decide_eq_true h
        · right
          rw [pyStrLe, if_neg (Ne.symm hxy)]
          exact decide_eq_true h

theorem pyStrLe_trans :
    ∀ a b c : Str, pyStrLe a b = true → pyStrLe b c = true → pyStrLe a c = true := by
  intro a
  induction a with
  | nil => intro b c _ _; rw [pyStrLe]
  | cons x xs ih =>
    intro b c hab hbc
    cases b with
    | nil => rw [pyStrLe] at hab; exact absurd hab (by simp)
    | cons y ys =>
      cases c with
      | nil => rw [pyStrLe] at hbc; exact absurd hbc (by simp)
      | cons z zs =>
        rw [pyStrLe] at hab hbc ⊢
        by_cases hxy : x = y
        · subst hxy
          rw [if_pos rfl] at hab
          by_cases hyz : x = z
          · subst hyz
            rw [if_pos rfl] at hbc ⊢
            exact ih ys zs hab hbc
          · rw [if_neg hyz] at hbc ⊢
            exact hbc
        · rw [if_neg hxy] at hab
          by_cases hyz : y = z
          · subst hyz
            rw [if_neg hxy]
            exact hab
          · rw [if_neg hyz] at hbc
            have hxz : x < z := lt_trans (by simpa using hab) (by simpa using hbc)
            rw [if_neg (ne_of_lt hxz)]
            simpa using hxz

instance : IsTotal Str pyLe := ⟨pyStrLe_total⟩

instance : IsTrans Str pyLe := ⟨pyStrLe_trans⟩

/-- The two include shapes are mutually exclusive. -/
theorem include_prefixes_exclusive (x : Str)
    (h1 : (sl "#include <").isPrefixOf x = true)
    (h2 : (sl "#include \"").isPrefixOf x = true) : False := by
  obtain ⟨t1, ht1⟩ := List.isPrefixOf_iff_prefix.mp h1
  obtain ⟨t2, ht2⟩ := List.isPrefixOf_iff_prefix.mp h2
  have e1 : x.take 10 = sl "#include <" := by
    rw [← ht1, show (10 : Nat) = (sl "#include <").length by decide]
    exact List.take_left _ _
  have e2 : x.take 10 = sl "#include \"" := by
    rw [← ht2, show (10 : Nat) = (sl "#include \"").length by decide]
    exact List.take_left _ _
  rw [e1] at e2
  exact absurd e2 (by decide)

theorem classifyIncludes_spec (l : List Str)
    (hwf : ∀ x ∈ l, (sl "#include <").isPrefixOf x = true ∨
      (sl "#include \"").isPrefixOf x = true) :
    classifyIncludes l =
      some (l.filter (fun x => (sl "#include <").isPrefixOf x),
            l.filter (fun x => (sl "#include \"").isPrefixOf x)) := by
  induction l with
  | nil => rfl
  | cons i rest ih =>
    have hrest := ih (fun x hx => hwf x (List.mem_cons_of_mem i hx))
    rcases hwf i (List.mem_cons_self i rest) with hi | hi
    · rw [classifyIncludes, if_pos hi, hrest]
      have hnot : (sl "#include \"").isPrefixOf i ≠ true := by
        intro hcon
        exact include_prefixes_exclusive i hi hcon
      simp [List.filter_cons, hi, hnot]
    · have hnot : (sl "#include <").isPrefixOf i ≠ true := by
        intro hcon
        exact include_prefixes_exclusive i hcon hi
      rw [classifyIncludes, if_neg (by simpa using hnot), if_pos hi, hrest]
      simp [List.filter_cons, hi, hnot]

/-- Claim C6: for every list of include lines, each angle-bracketed or
quoted, `sort_includes` returns all angle entries in lexicographic order,
then — exactly when both groups are nonempty — one blank line, then all
quoted entries in lexicographic order; and the concrete example from the
spec evaluates accordingly. -/
theorem C6_sort_includes_spec :
    (∀ l : List Str,
      (∀ x ∈ l, (sl "#include <").isPrefixOf x = true ∨
        (sl "#include \"").isPrefixOf x = true) →
      ∃ sys loc,
        sort_includes l =
          some (sys ++ (if loc ≠ [] ∧ sys ≠ [] then [['\n']] else []) ++ loc) ∧
        sys.Perm (l.filter (fun x => (sl "#include <").isPrefixOf x)) ∧
        List.Pairwise pyLe sys ∧
        loc.Perm (l.filter (fun x => (sl "#include \"").isPrefixOf x)) ∧
        List.Pairwise pyLe loc) ∧
    sort_includes
        [sl "#include <thread>\n", sl "#include <cstring>\n", sl "#include \"a.h\"\n"] =
      some [sl "#include <cstring>\n", sl "#include <thread>\n", sl "\n",
        sl "#include \"a.h\"\n"] := by
  constructor
  · intro l hwf
    have hsortwf : ∀ x ∈ List.insertionSort pyLe l,
        (sl "#include <").isPrefixOf x = true ∨
        (sl "#include \"").isPrefixOf x = true := by
      intro x hx
      exact hwf x ((List.perm_insertionSort pyLe l).mem_iff.mp hx)
    have hcl := classifyIncludes_spec _ hsortwf
    refine ⟨(List.insertionSort pyLe l).filter (fun x => (sl "#include <").isPrefixOf x),
            (List.insertionSort pyLe l).filter (fun x => (sl "#include \"").isPrefixOf x),
            ?_, ?_, ?_, ?_, ?_⟩
    · simp only [sort_includes, hcl]
      split_ifs with hc <;> simp
    · exact (List.perm_insertionSort pyLe l).filter _
    · exact (List.sorted_insertionSort pyLe l).filter _
    · exact (List.perm_insertionSort pyLe l).filter _
    · exact (List.sorted_insertionSort pyLe l).filter _
  · decide

theorem classifyIncludes_none {l : List Str} {x : Str} (hx : x ∈ l)
    (hA : (sl "#include <").isPrefixOf x ≠ true)
    (hB : (sl "#include \"").isPrefixOf x ≠ true) :
    classifyIncludes l = none := by
  induction l with
  | nil => exact absurd hx (by simp)
  | cons y rest ih =>
    rw [classifyIncludes]
    by_cases hyA : (sl "#include <").isPrefixOf y = true
    · rw [if_pos hyA]
      have hxr : x ∈ rest := by
        rcases List.mem_cons.mp hx with rfl | hxr
        · exact absurd hyA hA
        · exact hxr
      rw [ih hxr]
      rfl
    · rw [if_neg hyA]
      by_cases hyB : (sl "#include \"").isPrefixOf y = true
      · rw [if_pos hyB]
        have hxr : x ∈ rest := by
          rcases List.mem_cons.mp hx with rfl | hxr
          · exact absurd hyB hB
          · exact hxr
        rw [ih hxr]
        rfl
      · rw [if_neg hyB]

/-- Claim C10: `sort_includes` is total on its intended domain — for every
list in which each element is an angle-bracketed or quoted include line the
assertion branch is unreachable and the output is a permutation of the
input plus at most one inserted blank separator line; an element of any
other shape triggers the assertion (modelled as `none`). -/
theorem C10_sort_includes_total :
    (∀ l : List Str,
      (∀ x ∈ l, (sl "#include <").isPrefixOf x = true ∨
        (sl "#include \"").isPrefixOf x = true) →
      ∃ sys sep loc,
        sort_includes l = some (sys ++ sep ++ loc) ∧
        (sep = [] ∨ sep = [['\n']]) ∧
        (sys ++ loc).Perm l) ∧
    (∀ (l : List Str) (x : Str), x ∈ l →
      (sl "#include <").isPrefixOf x ≠ true →
      (sl "#include \"").isPrefixOf x ≠ true →
      sort_includes l = none) := by
  constructor
  · intro l hwf
    have hsortwf : ∀ x ∈ List.insertionSort pyLe l,
        (sl "#include <").isPrefixOf x = true ∨
        (sl "#include \"").isPrefixOf x = true := by
      intro x hx
      exact hwf x ((List.perm_insertionSort pyLe l).mem_iff.mp hx)
    have hcl := classifyIncludes_spec _ hsortwf
    refine ⟨(List.insertionSort pyLe l).filter (fun x => (sl "#include <").isPrefixOf x),
      (if (List.insertionSort pyLe l).filter
          (fun x => (sl "#include \"").isPrefixOf x) ≠ [] ∧
        (List.insertionSort pyLe l).filter
          (fun x => (sl "#include <").isPrefixOf x) ≠ [] then [['\n']] else []),
      (List.insertionSort pyLe l).filter (fun x => (sl "#include \"").isPrefixOf x),
      ?_, ?_, ?_⟩
    · simp only [sort_includes, hcl]
      split_ifs with hc <;> simp
    · split_ifs <;> simp
    · have hfb : (List.insertionSort pyLe l).filter
          (fun x => (sl "#include \"").isPrefixOf x) =
        (List.insertionSort pyLe l).filter
          (fun x => !((sl "#include <").isPrefixOf x)) := by
        apply List.filter_congr
        intro x hx
        rcases hsortwf x hx with hA | hB
        · have : (sl "#include \"").isPrefixOf x ≠ true := by
            intro hcon
            exact include_prefixes_exclusive x hA hcon
          simp [hA, this]
        · have : (sl "#include <").isPrefixOf x ≠ true := by
            intro hcon
            exact include_prefixes_exclusive x hcon hB
          simp [hB, this]
      rw [hfb]
      exact (List.filter_append_perm _ _).trans (List.perm_insertionSort pyLe l)
  · intro l x hx hA hB
    have hx2 : x ∈ List.insertionSort pyLe l :=
      (List.perm_insertionSort pyLe l).mem_iff.mpr hx
    rw [sort_includes, classifyIncludes_none hx2 hA hB]

/-- Witness for C6: the general statement applied to the spec's concrete
example list. -/
theorem C6_sort_includes_spec_witness :
    ∃ sys loc,
      sort_includes
          [sl "#include <thread>\n", sl "#include <cstring>\n",
            sl "#include \"a.h\"\n"] =
        some (sys ++ (if loc ≠ [] ∧ sys ≠ [] then [['\n']] else []) ++ loc) ∧
      sys.Perm (List.filter (fun x => (sl "#include <").isPrefixOf x)
        [sl "#include <thread>\n", sl "#include <cstring>\n",
          sl "#include \"a.h\"\n"]) ∧
      List.Pairwise pyLe sys ∧
      loc.Perm (List.filter (fun x => (sl "#include \"").isPrefixOf x)
        [sl "#include <thread>\n", sl "#include <cstring>\n",
          sl "#include \"a.h\"\n"]) ∧
      List.Pairwise pyLe loc :=
  C6_sort_includes_spec.1 _ (by decide)

/-- Witness for C10: totality at a concrete well-formed list and the
assertion at a concrete ill-formed one. -/
theorem C10_sort_includes_total_witness :
    (∃ sys sep loc,
      sort_includes [sl "#include <b>\n", sl "#include \"a\"\n"] =
        some (sys ++ sep ++ loc) ∧
      (sep = [] ∨ sep = [['\n']]) ∧
      (sys ++ loc).Perm [sl "#include <b>\n", sl "#include \"a\"\n"]) ∧
    sort_includes [sl "bogus"] = none :=
  ⟨C10_sort_includes_total.1 _ (by decide),
   C10_sort_includes_total.2 [sl "bogus"] (sl "bogus") (by decide) (by decide)
     (by decide)⟩

/-! ### sort_copyrights (lines 157-193) -/

/-- A match of `copyright_email_rx = <[^@]+@[^>]+>` at the start of `s`. -/
def tryEmailAt (s : Str) : Option Str :=
  match s with
  | '<' :: t =>
    let p := t.takeWhile (fun c => c ≠ '@')
    if p ≠ [] ∧ (t.drop p.length).head? = some '@' then
      let u := t.drop (p.length + 1)
      let q := u.takeWhile (fun c => c ≠ '>')
      if q ≠ [] ∧ (u.drop q.length).head? = some '>' then
        some ('<' :: p ++ '@' :: q ++ ['>'])
      else none
    else none
  | _ => none

/-- `re.search` for `copyright_email_rx`: the leftmost match. -/
def findEmail : Str → Option Str
  | [] => none
  | c :: cs =>
    match tryEmailAt (c :: cs) with
    | some em => some em
    | none => findEmail cs

/-- `re.findall` for `copyright_year_rx = \d\d\d\d` followed by `int(...)`:
the non-overlapping four-digit runs, left to right, as numbers.  The fuel
bounds the length of the text. -/
def findYearsGo : Nat → Str → List Nat
  | 0, _ => []
  | n + 1, s =>
    match s with
    | [] => []
    | c :: cs =>
      if ((c :: cs).take 4).length = 4 ∧ ((c :: cs).take 4).all Char.isDigit then
        (((c :: cs).take 4).foldl (fun acc d => acc * 10 + (d.toNat - 48)) 0)
          :: findYearsGo n ((c :: cs).drop 4)
      else
        findYearsGo n cs

def findYears (s : Str) : List Nat := findYearsGo s.length s

/-- Python set inclusion `a <= b` on year sets (the sets are carried as the
`findall` lists; membership is what matters). -/
def ysSubset (a b : List Nat) : Bool := a.all (fun y => b.contains y)

/-- The failure modes of `sort_copyrights`: the `assert match` on a line
without an email, and the `ValueError` naming the years present in the new
line but missing from the recorded set. -/
inductive CopyErr where
  | noEmail
  | conflict (missing : List Nat)
  deriving DecidableEq, Repr

def lookupAssoc : List (Str × (List Nat × Nat)) → Str → Option (List Nat × Nat)
  | [], _ => none
  | (k, v) :: rest, key => if k = key then some v else lookupAssoc rest key

def updateAssoc : List (Str × (List Nat × Nat)) → Str → List Nat × Nat →
    List (Str × (List Nat × Nat))
  | [], _, _ => []
  | (k, v) :: rest, key, nv =>
    if k = key then (k, nv) :: rest else (k, v) :: updateAssoc rest key nv

/-- The loop body of `sort_copyrights` (lines 165-191), walking the sorted
copyright lines with the email dictionary and output buffer. -/
def sortCopyGo : List Str → List (Str × (List Nat × Nat)) → List Str →
    Except CopyErr (List Str)
  | [], _, output => .ok output
  | c :: rest, dict, output =>
    match findEmail c with
    | none => .error .noEmail
    | some email =>
      let years := findYears c
      match lookupAssoc dict email with
      | none =>
        sortCopyGo rest (dict ++ [(email, (years, output.length))]) (output ++ [c])
      | some rec0 =>
        if ysSubset years rec0.1 then sortCopyGo rest dict output
        else if ysSubset rec0.1 years ∧ ¬ ysSubset years rec0.1 then
          sortCopyGo rest (updateAssoc dict email (years, rec0.2))
            (output.set rec0.2 c)
        else
          .error (.conflict (years.filter (fun y => ¬ rec0.1.contains y)))

/-- `sort_copyrights`: sort the distinct copyright lines lexicographically
and merge per email. -/
def sort_copyrights (copyrights : List Str) : Except CopyErr (List Str) :=
  sortCopyGo (List.insertionSort pyLe copyrights) [] []

/-- Claim C5: walking the distinct copyright lines in lexicographic order,
the first line seen for an email is emitted as-is with its year set
recorded; a later line with the same email is skipped when its year set is
a subset of the recorded one, replaces the previously emitted line in place
when it is a proper superset, and otherwise raises a fatal error naming
exactly the years present in the new line but missing from the recorded
set.  The spec's two concrete scenarios evaluate accordingly. -/
theorem C5_sort_copyrights_spec :
    (∀ (rest : List Str) (dict : List (Str × (List Nat × Nat)))
        (output : List Str) (line email : Str),
      findEmail line = some email →
      ((lookupAssoc dict email = none →
        sortCopyGo (line :: rest) dict output =
          sortCopyGo rest (dict ++ [(email, (findYears line, output.length))])
            (output ++ [line])) ∧
      (∀ (Y : List Nat) (i : Nat), lookupAssoc dict email = some (Y, i) →
        (ysSubset (findYears line) Y = true →
          sortCopyGo (line :: rest) dict output = sortCopyGo rest dict output) ∧
        (ysSubset (findYears line) Y ≠ true → ysSubset Y (findYears line) = true →
          sortCopyGo (line :: rest) dict output =
            sortCopyGo rest (updateAssoc dict email (findYears line, i))
              (output.set i line)) ∧
        (ysSubset (findYears line) Y ≠ true → ysSubset Y (findYears line) ≠ true →
          sortCopyGo (line :: rest) dict output =
            .error (.conflict ((findYears line).filter
              (fun y => ¬ Y.contains y))))))) ∧
    sort_copyrights [sl "Copyright © 2016 X <e@x>", sl "Copyright © 2017 X <e@x>"] =
      .error (.conflict [2017]) ∧
    sort_copyrights
        [sl "Copyright © 2016 X <e@x>", sl "Copyright © 2016, 2018 X <e@x>"] =
      .ok [sl "Copyright © 2016, 2018 X <e@x>"] := by
  refine ⟨?_, by rfl, by rfl⟩
  intro rest dict output line email hem
  constructor
  · intro hln
    simp only [sortCopyGo, hem, hln]
  · intro Y i hlk
    refine ⟨?_, ?_, ?_⟩
    · intro hsub
      simp only [sortCopyGo, hem, hlk]
      rw [if_pos hsub]
    · intro hnsub hsup
      simp only [sortCopyGo, hem, hlk]
      rw [if_neg hnsub, if_pos ⟨hsup, hnsub⟩]
    · intro hnsub hnsup
      simp only [sortCopyGo, hem, hlk]
      rw [if_neg hnsub, if_neg (fun hc => hnsup hc.1)]

/-- Witness for C5: the conflict branch applied at a concrete state. -/
theorem C5_sort_copyrights_spec_witness :
    sortCopyGo [sl "Copyright © 2017 X <e@x>"] [(sl "<e@x>", ([2016], 0))]
        [sl "Copyright © 2016 X <e@x>"] =
      .error (.conflict ((findYears (sl "Copyright © 2017 X <e@x>")).filter
        (fun y => ¬ (([2016] : List Nat)).contains y))) :=
  ((C5_sort_copyrights_spec.1 [] [(sl "<e@x>", ([2016], 0))]
      [sl "Copyright © 2016 X <e@x>"] (sl "Copyright © 2017 X <e@x>")
      (sl "<e@x>") (by decide)).2 [2016] 0 (by decide)).2.2
    (by decide) (by decide)

/-! ### Python whitespace handling and the include post-pass
(acme, lines 566-581) -/

def isSpacePy (c : Char) : Bool :=
  c = ' ' ∨ c = '\t' ∨ c = '\n' ∨ c = '\r' ∨ c = '\x0b' ∨ c = '\x0c'

def lstripPy (s : Str) : Str := s.dropWhile isSpacePy

def rstripPy (s : Str) : Str := (s.reverse.dropWhile isSpacePy).reverse

/-- Python `s.strip()`. -/
def stripPy (s : Str) : Str := rstripPy (lstripPy s)

/-- The literal `// {{includes}}` marker line content. -/
def includesMarker : Str := sl "// \x7b\x7bincludes\x7d\x7d"

/-- The scan loop of the include post-pass: `done` is the already-processed
prefix of the line buffer, `rest` the part still to scan.  A marker line is
replaced by the sorted first pending set; when the pending sets are
exhausted the loop breaks, leaving the remaining lines unscanned; when the
lines run out first, the first remaining pending set is prepended to the
very top.  (`sort_includes` failing its assertion propagates as `none`;
the inner `pending = []` cases are unreachable from `acme_include_postpass`.) -/
def includePostGo (pending : List (List Str)) (done : List Str) :
    List Str → Option (List Str)
  | [] =>
    match pending with
    | [] => some done
    | s0 :: _ => (sort_includes s0).map (fun si => si ++ done)
  | line :: rest =>
    if stripPy line = includesMarker then
      match pending with
      | [] => some (done ++ line :: rest)
      | s0 :: prest =>
        match sort_includes s0 with
        | none => none
        | some si =>
          if prest = [] then some (done ++ si ++ rest)
          else includePostGo prest (done ++ si) rest
    else includePostGo pending (done ++ [line]) rest

/-- The include post-pass of `acme` (lines 566-581): runs only when some
pending include set exists. -/
def acme_include_postpass (new_includes : List (List Str)) (lines : List Str) :
    Option (List Str) :=
  if new_includes ≠ [] then includePostGo new_includes [] lines else some lines

theorem includePostGo_no_marker :
    ∀ (rest : List Str) (s0 : List Str) (srest : List (List Str)) (done : List Str),
      (∀ l ∈ rest, stripPy l ≠ includesMarker) →
      includePostGo (s0 :: srest) done rest =
        (sort_includes s0).map (fun si => si ++ (done ++ rest)) := by
  intro rest
  induction rest with
  | nil =>
    intro s0 srest done _
    rw [includePostGo]
    simp
  | cons line rs ih =>
    intro s0 srest done hnm
    rw [includePostGo,
      if_neg (hnm line (List.mem_cons_self line rs)),
      ih s0 srest (done ++ [line]) (fun l hl => hnm l (List.mem_cons_of_mem line hl))]
    apply congrArg (Option.map · (sort_includes s0))
    funext si
    simp

/-- Claim C8 (counterexample): when the markers run out before the pending
include sets do, only the FIRST remaining set is prepended; a second
remaining set is dropped entirely, so its collected include line is lost
from the output. -/
theorem C8_include_postpass_drops_later_sets :
    acme_include_postpass [[sl "#include <x.h>\n"], [sl "#include <y.h>\n"]]
        [sl "text\n"] =
      some [sl "#include <x.h>\n", sl "text\n"] ∧
    sl "#include <y.h>\n" ∉ [sl "#include <x.h>\n", sl "text\n"] := by
  refine ⟨by rfl, by decide⟩

/-- Claim C8 (amended): if the `// {{includes}}` markers run out before the
pending include sets do (no marker line remains in the still-unscanned
lines), the FIRST remaining pending set — and only it — is prepended to the
very top of the output; any further remaining sets are dropped. -/
theorem C8_include_postpass_first_remaining_set
    (lines : List Str) (s0 : List Str) (srest : List (List Str))
    (hnm : ∀ l ∈ lines, stripPy l ≠ includesMarker) :
    acme_include_postpass (s0 :: srest) lines =
      (sort_includes s0).map (fun si => si ++ lines) := by
  rw [acme_include_postpass, if_pos (by simp),
    includePostGo_no_marker lines s0 srest [] hnm]
  simp

/-- Witness for the amended C8 theorem at a concrete input. -/
theorem C8_include_postpass_first_remaining_set_witness :
    acme_include_postpass [[sl "#include <x.h>\n"], [sl "#include <y.h>\n"]]
        [sl "other\n"] =
      (sort_includes [sl "#include <x.h>\n"]).map (fun si => si ++ [sl "other\n"]) :=
  C8_include_postpass_first_remaining_set [sl "other\n"]
    [sl "#include <x.h>\n"] [[sl "#include <y.h>\n"]] (by decide)

/-! ### Line classifiers of the scanner (the regexes of lines 195-202) -/

def dropFinalNewline (s : Str) : Str :=
  if s.getLast? = some '\n' then s.dropLast else s

/-- `linecomment_rx = ^\s*(/\*.*\*/|//.*)?\s*$`: a blank line, a `//` line,
or a one-line `/* ... */` comment. -/
def linecommentMatch (line : Str) : Bool :=
  let st := stripPy line
  st = [] ∨ (sl "//").isPrefixOf st ∨
    ((sl "/*").isPrefixOf st ∧ (sl "*/").isSuffixOf st ∧ 4 ≤ st.length)

/-- `blockcomment_start_rx` combined with the `'*/' not in line` test of
line 316. -/
def blockStartMatch (line : Str) : Bool :=
  (sl "/*").isPrefixOf (lstripPy line) ∧ ¬ containsSub (sl "*/") line

/-- `blockcomment_end_rx = ^\s*.*\*/\s*$`. -/
def blockEndMatch (line : Str) : Bool :=
  (sl "*/").isSuffixOf (rstripPy line)

/-- `copyright_rc = ^\s+Copyright © \d{4}.+$`. -/
def copyrightMatch (line : Str) : Bool :=
  let ws := line.takeWhile isSpacePy
  let rest := line.drop ws.length
  ws ≠ [] ∧ (sl "Copyright © ").isPrefixOf rest ∧
    4 ≤ (rest.drop 12).length ∧ ((rest.drop 12).take 4).all Char.isDigit ∧
    dropFinalNewline ((rest.drop 12).drop 4) ≠ []

/-- `line.rstrip().endswith('>')` of lines 276 and 285. -/
def endsWithGt (line : Str) : Bool := (rstripPy line).getLast? = some '>'

/-- The six directive keywords, in the alternation order of
`preprocessor_rx` (so `ifdef` and `ifndef` are tried before `if`, and
`else` before `elif`); returns the keyword and its length. -/
inductive PpKind where
  | pif | pifdef | pifndef | pelse | pelif | pendif
  deriving DecidableEq, Repr

def ppKeyword (r : Str) : Option (PpKind × Nat) :=
  if (sl "ifdef").isPrefixOf r then some (.pifdef, 5)
  else if (sl "ifndef").isPrefixOf r then some (.pifndef, 6)
  else if (sl "if").isPrefixOf r then some (.pif, 2)
  else if (sl "else").isPrefixOf r then some (.pelse, 4)
  else if (sl "elif").isPrefixOf r then some (.pelif, 4)
  else if (sl "endif").isPrefixOf r then some (.pendif, 5)
  else none

/-- Does `\s*/[/*].*$` (the `comment` group of `preprocessor_rx`) match the
whole of `t`? -/
def commentCheck (t : Str) : Bool :=
  let t2 := t.dropWhile isSpacePy
  (sl "//").isPrefixOf t2 ∨ (sl "/*").isPrefixOf t2

/-- The backtracking order of `(?P<value>[^\n]*?[^\s]?)(?P<comment>\s*/[/*].*)?$`
on the text after the directive keyword and its following whitespace: grow
the lazy `value` one character at a time; at each length first try to
consume one non-space character and match the comment group after it, then
to consume it and be at the end, then to match the comment group in place. -/
def splitValueComment (acc : Str) : Str → Str × Str
  | [] => (acc, [])
  | c :: cs =>
    if ¬ isSpacePy c ∧ commentCheck cs then (acc ++ [c], cs)
    else if ¬ isSpacePy c ∧ cs = [] then (acc ++ [c], [])
    else if commentCheck (c :: cs) then (acc, c :: cs)
    else splitValueComment (acc ++ [c]) cs

/-- `preprocessor_rx` as a whole: returns (indent, kind, raw value group,
raw comment group). -/
def preprocessorMatch (line : Str) : Option (Str × PpKind × Str × Str) :=
  let indent := line.takeWhile isSpacePy
  match line.drop indent.length with
  | '#' :: r2 =>
    match ppKeyword r2 with
    | some kl =>
      let core := dropFinalNewline (r2.drop kl.2)
      let T := core.dropWhile isSpacePy
      let vc := splitValueComment [] T
      some (indent, kl.1, vc.1, vc.2)
    | none => none
  | _ => none

/-- `include_rx`: returns (the `include` group, the quote character, the
`file` group). -/
def includeMatch (line : Str) : Option (Str × Char × Str) :=
  if (sl "#include ").isPrefixOf line then
    match line.drop 9 with
    | q :: rest =>
      if q = '"' ∨ q = '<' then
        let f := rest.takeWhile (fun c => c ≠ '"' ∧ c ≠ '>')
        match (rest.drop f.length).head? with
        | some closer =>
          if f ≠ [] then some (sl "#include " ++ q :: (f ++ [closer]), q, f)
          else none
        | none => none
      else none
    | [] => none
  else none

/-- `acme_pragma_rx`: returns (verb, value). -/
def pragmaMatch (line : Str) : Option (Str × Str) :=
  if (sl "#pragma").isPrefixOf line then
    let r1 := line.drop 7
    let ws1 := r1.takeWhile isSpacePy
    if ws1 = [] then none
    else
      let r2 := r1.drop ws1.length
      if (sl "ACME").isPrefixOf r2 then
        let r3 := r2.drop 4
        let ws2 := r3.takeWhile isSpacePy
        if ws2 = [] then none
        else
          let r4 := r3.drop ws2.length
          let what := r4.takeWhile (fun c => ¬ isSpacePy c)
          if what = [] then none
          else
            let r6 := (r4.drop what.length).dropWhile isSpacePy
            some (what, dropFinalNewline r6)
      else none
  else none

/-- `define_rx`: a plain `#define NAME` / `#undef NAME` line (no value);
returns the name. -/
def defineMatch (line : Str) : Option Str :=
  match line.dropWhile isSpacePy with
  | '#' :: r2 =>
    let klen : Option Nat :=
      if (sl "define ").isPrefixOf r2 then some 7
      else if (sl "undef ").isPrefixOf r2 then some 6
      else none
    match klen with
    | some n =>
      let r3 := r2.drop n
      let name := r3.takeWhile (fun c => ¬ isSpacePy c)
      if name ≠ [] ∧ (r3.drop name.length).all isSpacePy then some name else none
    | none => none
  | _ => none

/-- `line.rindex('/*')` of line 551: the start index of the last occurrence. -/
def rindexSub (pat : Str) : Str → Option Nat
  | [] => if pat = [] then some 0 else none
  | c :: cs =>
    match rindexSub pat cs with
    | some i => some (i + 1)
    | none => if pat.isPrefixOf (c :: cs) then some 0 else none

/-! ### The recursive scanner `parse` (lines 204-562) -/

/-- One branch-stack entry `[isReal, visibility, openIndex]` (line 241).
Visibility: `some true` print, `some false` drop, `none` keep verbatim. -/
structure Frame where
  isReal : Bool
  vis : Option Bool
  openIdx : Nat
  deriving DecidableEq, Repr

/-- The `nonlocal` run-wide state threaded through the recursive scan. -/
structure Gst where
  write_comments : Bool
  paths : List Str
  local_include_prefixes : List Str
  local_includes_noexpand : List Str
  all_includes : List Str
  new_includes : List (List Str)
  copyrights : List Str
  parsed_files : List Str
  forced_defines : List (Str × Bool)
  revision_commands : List (Str × Str)
  stats_commands : List (Str × Str)
  deriving DecidableEq, Repr

/-- The per-file scan state. -/
structure LSt where
  includes_out : List Str
  out : List Str
  in_comment : Bool
  comment_buffer : List Str
  multiline_copyright : Option Str
  branch_stack : List Frame
  deriving DecidableEq, Repr

/-- Failure modes of the scan: fuel exhaustion of the modelled recursion,
a failed `assert`, an unresolvable include (`logging.fatal` + `assert
False`), and the uncaught `ValueError` of `line.rindex` on a stray
trailing `*/`. -/
inductive PErr where
  | fuelOut
  | assertFail
  | includeNotFound
  | valueError
  deriving DecidableEq, Repr

/-- Python `set.add` on a set modelled as a deduplicated list. -/
def addSet (l : List Str) (x : Str) : List Str :=
  if l.contains x then l else l ++ [x]

/-- `new_includes[-1].add(x)`. -/
def addLastSet : List (List Str) → Str → List (List Str)
  | [], _ => []
  | [s], x => [addSet s x]
  | s :: rest, x => s :: addLastSet rest x

/-- Python dict assignment (insertion-ordered). -/
def updateFd : List (Str × Bool) → Str → Bool → List (Str × Bool)
  | [], k, v => [(k, v)]
  | (a, b) :: rest, k, v =>
    if a = k then (a, v) :: rest else (a, b) :: updateFd rest k v

def updateCmd : List (Str × Str) → Str → Str → List (Str × Str)
  | [], k, v => [(k, v)]
  | (a, b) :: rest, k, v =>
    if a = k then (a, v) :: rest else (a, b) :: updateCmd rest k v

def lookupFd : List (Str × Bool) → Str → Option Bool
  | [], _ => none
  | (a, b) :: rest, k => if a = k then some b else lookupFd rest k

/-- The modelled filesystem: association list from path to decoded lines
(the scanner reads files line by line; a BOM-carrying file is outside this
model). -/
def lookupFile : List (Str × List Str) → Str → Option (List Str)
  | [], _ => none
  | (p, ls) :: rest, q => if p = q then some ls else lookupFile rest q

/-- `os.path.dirname`, modelled for relative POSIX paths. -/
def dirnamePy (p : Str) : Str :=
  if containsSub ['/'] p then (p.reverse.dropWhile (fun c => c ≠ '/')).reverse.dropLast
  else []

/-- `os.path.join`, modelled for relative POSIX paths. -/
def joinPy (a b : Str) : Str := if a = [] then b else a ++ '/' :: b

/-- `include.partition('/')[0]`. -/
def splitFirstSlash (s : Str) : Str := s.takeWhile (fun c => c ≠ '/')

/-- Python `value.partition(' ')` giving the head and the tail. -/
def partitionSpace (s : Str) : Str × Str :=
  let a := s.takeWhile (fun c => c ≠ ' ')
  (a, (s.drop a.length).drop 1)

def kindStr : CKind → Str
  | .cif => sl "if"
  | .cifdef => sl "ifdef"
  | .cifndef => sl "ifndef"
  | .celif => sl "elif"

/-- `while out and not out[-1].strip(): out.pop()` (line 559). -/
def dropTrailingBlanks (out : List Str) : List Str :=
  (out.reverse.dropWhile (fun l => stripPy l = [])).reverse

/-- The dummy-frame popping loop of `endif` (lines 426-430): pops `#elif`
dummies, emitting an `#endif` for each visibility-neutral one and tracking
the opening line number. -/
def popDummies (endifLine : Str) :
    List Frame → List Str → Nat → List Frame × List Str × Nat
  | [], out, lineno => ([], out, lineno)
  | f :: fs, out, lineno =>
    if f.isReal = false then
      popDummies endifLine fs
        (if f.vis = none then out ++ [endifLine] else out) f.openIdx
    else (f :: fs, out, lineno)

/-- The preprocessor-directive part of the scanner (lines 329-439),
acting on the local state. -/
def processDirective (fd : List (Str × Bool)) (st : LSt) (indent : Str)
    (k : PpKind) (value0 : Str) (comment : Str) : Except PErr LSt :=
  match st.branch_stack with
  | [] => .error .assertFail
  | top :: rest =>
    if top.isReal ≠ true then .error .assertFail
    else
      let ck : Option CKind :=
        match k with
        | .pif => some .cif
        | .pifdef => some .cifdef
        | .pifndef => some .cifndef
        | .pelif => some .celif
        | _ => none
      match ck with
      | some c =>
        let pwv := simplify_expression c value0 fd
        let push_value := pwv.1
        let what := pwv.2.1
        let value := pwv.2.2
        match what with
        | .celif =>
          match rest with
          | [] => .error .assertFail
          | parent :: _ =>
            let v1 := if top.vis ≠ none ∧ parent.vis ≠ some false
              then top.vis.map (fun b => !b) else top.vis
            let pv := if v1 = some false then some false else push_value
            let v2 := if v1 = none ∧ pv = none then some true else v1
            let outAdd : List Str :=
              if v1 = none ∧ pv = none then
                [indent ++ sl "#elif " ++ value ++ comment ++ ['\n']]
              else if v1 = none ∧ pv ≠ none then
                [indent ++ sl "#else" ++ comment ++ ['\n']]
              else if v1 ≠ none ∧ pv = none then
                [indent ++ '#' :: kindStr (normalize_expression value).1 ++
                  ' ' :: (normalize_expression value).2 ++ comment ++ ['\n']]
              else []
            .ok { st with
              branch_stack :=
                ⟨true, pv, top.openIdx⟩ :: ⟨false, v2, top.openIdx⟩ :: rest,
              out := st.out ++ outAdd }
        | w =>
          -- `if`, `ifdef`, `ifndef`: push a new node
          let pv := if top.vis = some false then some false else push_value
          let out' := if pv = none then
              st.out ++ [indent ++ '#' :: kindStr w ++ ' ' :: value ++ comment ++ ['\n']]
            else st.out
          .ok { st with
            branch_stack := ⟨true, pv, st.out.length⟩ :: top :: rest,
            out := out' }
      | none =>
        match k with
        | .pelse =>
          match rest with
          | [] => .error .assertFail
          | parent :: _ =>
            let emit := top.vis = none
            let v1 := if emit then top.vis else top.vis.map (fun b => !b)
            let v2 := if parent.vis = some false then some false else v1
            .ok { st with
              branch_stack := { top with vis := v2 } :: rest,
              out := if emit then
                  st.out ++ [indent ++ sl "#else" ++ comment ++ ['\n']]
                else st.out }
        | _ =>
          -- `endif`
          match rest with
          | [] => .error .assertFail
          | _ :: _ =>
            let endifLine := indent ++ sl "#endif" ++ comment ++ ['\n']
            let endif_written := top.vis = none
            let out1 := if endif_written then st.out ++ [endifLine] else st.out
            let pr := popDummies endifLine rest out1 top.openIdx
            match pr.1 with
            | [] => .error .assertFail
            | _ :: _ =>
              let out2 := pr.2.1
              let if_lineno := pr.2.2
              let out3 := if endif_written ∧ if_lineno + 2 = out2.length then
                  out2.dropLast.dropLast
                else out2
              .ok { st with branch_stack := pr.1, out := out3 }

/-- The visibility of the current (leaf) branch frame. -/
def topVis (st : LSt) : Option Bool :=
  match st.branch_stack with
  | [] => none
  | top :: _ => top.vis

/-- One line of the scanner loop (lines 251-553).  `recur` is the recursive
scan used for a not-yet-parsed local include. -/
def processLine (fs : List (Str × List Str)) (toplevel : Str)
    (recur : Gst → Str → Except PErr (List Str × Gst)) (file : Str)
    (sg : LSt × Gst) (line : Str) : Except PErr (LSt × Gst) :=
  let st := sg.1
  let g := sg.2
  -- Buffered block comment (lines 255-296)
  if st.in_comment then
    if blockEndMatch line then
      if st.multiline_copyright ≠ none then .error .assertFail
      else if topVis st ≠ some false ∧ st.comment_buffer ≠ [] then
        .ok ({ st with
          in_comment := false
          out := st.out ++ st.comment_buffer ++ [line]
          comment_buffer := [] }, g)
      else .ok ({ st with in_comment := false }, g)
    else if topVis st ≠ some false then
      match st.multiline_copyright with
      | some mc =>
        if endsWithGt line then
          .ok ({ st with multiline_copyright := none },
            { g with copyrights := addSet g.copyrights (mc ++ line) })
        else .ok ({ st with multiline_copyright := some (mc ++ line) }, g)
      | none =>
        if copyrightMatch line then
          if endsWithGt line then
            .ok ({ st with comment_buffer := [] },
              { g with copyrights := addSet g.copyrights line })
          else
            .ok ({ st with
              comment_buffer := []
              multiline_copyright := some line }, g)
        else if st.comment_buffer ≠ [] then
          .ok ({ st with comment_buffer := st.comment_buffer ++ [line] }, g)
        else .ok (st, g)
    else .ok (st, g)
  -- Single-line comment or an empty line (lines 299-312)
  else if linecommentMatch line then
    let g1 := if stripPy line = includesMarker then
        { g with new_includes := g.new_includes ++ [[]] }
      else g
    if topVis st ≠ some false ∧
        ((stripPy line ≠ [] ∧ g.write_comments) ∨ stripPy line = includesMarker ∨
          (stripPy line = [] ∧ st.out ≠ [] ∧
            stripPy (st.out.getLastD []) ≠ [])) then
      .ok ({ st with out := st.out ++ [line] }, g1)
    else .ok (st, g1)
  -- Start of a multi-line comment (lines 315-326)
  else if blockStartMatch line then
    if st.comment_buffer ≠ [] then .error .assertFail
    else if topVis st ≠ some false ∧ g.write_comments then
      .ok ({ st with in_comment := true, comment_buffer := [line] }, g)
    else .ok ({ st with in_comment := true }, g)
  else
    -- Preprocessor branch (lines 329-439)
    match preprocessorMatch line with
    | some m =>
      let indent := m.1
      let k := m.2.1
      let value0 := stripPy m.2.2.1
      let comment0 := m.2.2.2
      let comment := if comment0 ≠ [] ∧ ¬ isSpacePy (comment0.headD ' ') then
          ' ' :: comment0
        else comment0
      match processDirective g.forced_defines st indent k value0 comment with
      | .error e => .error e
      | .ok st' => .ok (st', g)
    | none =>
      -- In a disabled branch, ignore anything else (lines 441-445)
      if topVis st = some false then .ok (st, g)
      else
        -- Include (lines 447-513)
        match includeMatch line with
        | some m =>
          let includeText := m.1
          let is_local := m.2.1 = '"'
          let incFile := m.2.2
          if (is_local ∨ g.local_include_prefixes.contains (splitFirstSlash incFile)) ∧
              ¬ g.local_includes_noexpand.contains incFile then
            let resolved : Except PErr Str :=
              if is_local ∧ ¬ containsSub ['/'] incFile then
                let abs := joinPy (dirnamePy file) incFile
                if (lookupFile fs abs).isSome then .ok abs
                else .error .includeNotFound
              else
                match g.paths.find? (fun p => (lookupFile fs (joinPy p incFile)).isSome) with
                | some p => .ok (joinPy p incFile)
                | none => .error .includeNotFound
            match resolved with
            | .error e => .error e
            | .ok abs =>
              if g.parsed_files.contains abs then .ok (st, g)
              else
                match recur g abs with
                | .error e => .error e
                | .ok lg =>
                  if toplevel = file then
                    .ok ({ st with out := st.out ++ lg.1 }, lg.2)
                  else
                    .ok ({ st with includes_out := st.includes_out ++ lg.1 }, lg.2)
          else
            let includeline := includeText ++ ['\n']
            if g.all_includes.contains includeline then .ok (st, g)
            else
              let keepInPlace := 1 < st.branch_stack.length ∧
                (st.branch_stack.headD ⟨true, some true, 0⟩).openIdx ≠ 0 ∧
                topVis st = none
              let g2 := { g with all_includes := addSet g.all_includes includeline }
              if keepInPlace then
                .ok ({ st with out := st.out ++ [includeline] }, g2)
              else
                let base := if g.new_includes = [] then [[]] else g.new_includes
                let ni := addLastSet base includeline
                .ok (st, { g2 with new_includes := ni })
        | none =>
          -- Pragma (lines 515-541)
          match pragmaMatch line with
          | some wv =>
            let what := wv.1
            let value := wv.2
            if what = sl "enable" then
              .ok (st, { g with forced_defines := updateFd g.forced_defines value true })
            else if what = sl "disable" then
              .ok (st, { g with forced_defines := updateFd g.forced_defines value false })
            else if what = sl "path" then
              .ok (st, { g with paths := g.paths ++ [joinPy (dirnamePy toplevel) value] })
            else if what = sl "local" then
              .ok (st, { g with local_include_prefixes := g.local_include_prefixes ++ [value] })
            else if what = sl "comments" then
              .ok (st, { g with write_comments := value = sl "on" })
            else if what = sl "revision" then
              let pc := partitionSpace value
              let rc := updateCmd g.revision_commands pc.1 (stripPy pc.2)
              .ok (st, { g with revision_commands := rc })
            else if what = sl "stats" then
              let pc := partitionSpace value
              let sc := updateCmd g.stats_commands pc.1 (stripPy pc.2)
              .ok (st, { g with stats_commands := sc })
            else if what = sl "noexpand" then
              let ne := addSet g.local_includes_noexpand value
              .ok (st, { g with local_includes_noexpand := ne })
            else .ok (st, g)
          | none =>
            -- Forced #define / #undef is dropped (lines 543-546)
            match defineMatch line with
            | some name =>
              if (lookupFd g.forced_defines name).isSome then .ok (st, g)
              else
                -- fall through to verbatim
                if (sl "*/").isSuffixOf (rstripPy line) then
                  match rindexSub (sl "/*") line with
                  | some i =>
                    .ok ({ st with out := st.out ++ [rstripPy (line.take i) ++ ['\n']] }, g)
                  | none => .error .valueError
                else .ok ({ st with out := st.out ++ [line] }, g)
            | none =>
              -- Verbatim, stripping a trailing block comment (lines 548-553)
              if (sl "*/").isSuffixOf (rstripPy line) then
                match rindexSub (sl "/*") line with
                | some i =>
                  .ok ({ st with out := st.out ++ [rstripPy (line.take i) ++ ['\n']] }, g)
                | none => .error .valueError
              else .ok ({ st with out := st.out ++ [line] }, g)

/-- The scanner loop over the decoded lines of one file. -/
def runLines (fs : List (Str × List Str)) (toplevel : Str)
    (recur : Gst → Str → Except PErr (List Str × Gst)) (file : Str) :
    LSt × Gst → List Str → Except PErr (LSt × Gst)
  | sg, [] => .ok sg
  | sg, line :: rest =>
    match processLine fs toplevel recur file sg line with
    | .error e => .error e
    | .ok sg2 => runLines fs toplevel recur file sg2 rest

def initLSt : LSt := ⟨[], [], false, [], none, [⟨true, some true, 0⟩]⟩

def initGst : Gst := ⟨true, [], [], [], [], [], [], [], [], [], []⟩

/-- One recursive `parse(file, level)` call (lines 218-562), with a fuel
bound on the recursion depth.  The file is marked parsed at the start so
circular includes are inert; at the end the branch stack must be back to
exactly one frame, trailing blank lines are dropped, and the buffered
nested includes are prepended. -/
def parseFile (fs : List (Str × List Str)) (toplevel : Str) :
    Nat → Gst → Str → Except PErr (List Str × Gst)
  | 0, _, _ => .error .fuelOut
  | fuel + 1, g, file =>
    match lookupFile fs file with
    | none => .error .includeNotFound
    | some lines =>
      let g1 := { g with parsed_files := addSet g.parsed_files file }
      match runLines fs toplevel (parseFile fs toplevel fuel) file (initLSt, g1) lines with
      | .error e => .error e
      | .ok sg =>
        if sg.1.branch_stack.length = 1 then
          .ok (sg.1.includes_out ++ dropTrailingBlanks sg.1.out, sg.2)
        else .error .assertFail

/-- `lines = parse(toplevel_file, 0)` with the run-wide state fresh
(lines 204-217 and 564). -/
def parse (fs : List (Str × List Str)) (toplevel : Str) :
    Except PErr (List Str × Gst) :=
  parseFile fs toplevel (fs.length + 1) initGst toplevel

/-- Claim C7 (counterexample): a `// {{includes}}` marker line inside an
excluded branch opens a new pending include set but is NOT passed through
to the output — the scan of the concrete file below produces an empty
output yet records one (empty) pending include set. -/
theorem C7_marker_dropped_when_excluded :
    (parse [(sl "t.h",
        [sl "#pragma ACME disable A\n", sl "#ifdef A\n",
          sl "// \x7b\x7bincludes\x7d\x7d\n", sl "#endif\n"])]
      (sl "t.h")).toOption.map
        (fun lg => (lg.1, lg.2.new_includes)) =
      some ([], [[]]) := by
  rfl

theorem linecomment_of_marker {line : Str} (h : stripPy line = includesMarker) :
    linecommentMatch line = true := by
  unfold linecommentMatch
  rw [h]
  decide

/-- Claim C7 (amended): a scanned line that is exactly `// {{includes}}`
after trimming always opens a new pending include set, regardless of the
enclosing branch's visibility; it is passed through to the output exactly
when the enclosing branch is not excluded (and then regardless of the
comment-suppression pragma). -/
theorem C7_marker_opens_set (fs : List (Str × List Str)) (toplevel : Str)
    (recur : Gst → Str → Except PErr (List Str × Gst)) (file : Str)
    (st : LSt) (g : Gst) (line : Str)
    (hcm : st.in_comment = false)
    (hmk : stripPy line = includesMarker) :
    processLine fs toplevel recur file (st, g) line =
      .ok ((if topVis st ≠ some false then { st with out := st.out ++ [line] }
            else st),
        { g with new_includes := g.new_includes ++ [[]] }) := by
  unfold processLine
  rw [if_neg (by simp [hcm]), if_pos (by simpa using linecomment_of_marker hmk)]
  simp only [if_pos hmk]
  by_cases hvis : topVis st = some false
  · rw [if_neg (by simp [hvis]), if_neg (by simpa using hvis)]
  · rw [if_pos hvis, if_pos ⟨hvis, Or.inr (Or.inl hmk)⟩]

/-- Witness for the amended C7 theorem: a visible marker is emitted and
opens a set. -/
theorem C7_marker_opens_set_witness :
    processLine [] (sl "t.h") (fun g _ => .ok ([], g)) (sl "t.h")
        (initLSt, initGst) (sl "// \x7b\x7bincludes\x7d\x7d\n") =
      .ok ((if topVis initLSt ≠ some false then
          { initLSt with out := initLSt.out ++ [sl "// \x7b\x7bincludes\x7d\x7d\n"] }
        else initLSt),
        { initGst with new_includes := initGst.new_includes ++ [[]] }) :=
  C7_marker_opens_set [] (sl "t.h") (fun g _ => .ok ([], g)) (sl "t.h")
    initLSt initGst (sl "// \x7b\x7bincludes\x7d\x7d\n") (by rfl) (by decide)

/-- Claim C9 (counterexample): the assembled output CAN contain two
consecutive blank lines — the interior of a preserved block comment is
buffered verbatim and flushed without blank-line collapsing. -/
theorem C9_block_comment_consecutive_blanks :
    (parse [(sl "t.h", [sl "/*\n", sl "\n", sl "\n", sl "x*/\n"])]
        (sl "t.h")).toOption.map Prod.fst =
      some [sl "/*\n", sl "\n", sl "\n", sl "x*/\n"] ∧
    stripPy (sl "\n") = [] := by
  exact ⟨by rfl, by decide⟩

/-- Claim C9 (amended): a line classified by the scanner as a standalone
blank line (outside any block comment) is emitted only when the enclosing
branch is visible, the file's output so far is nonempty, and the
previously emitted line is non-blank; so the blank-line path never
produces two consecutive blank lines or a leading blank line.  (Two
consecutive blank lines can still reach the output inside a preserved
block comment, per the counterexample.) -/
theorem C9_blank_line_collapsing (fs : List (Str × List Str)) (toplevel : Str)
    (recur : Gst → Str → Except PErr (List Str × Gst)) (file : Str)
    (st : LSt) (g : Gst) (line : Str)
    (hcm : st.in_comment = false)
    (hblank : stripPy line = []) :
    processLine fs toplevel recur file (st, g) line =
      .ok ((if topVis st ≠ some false ∧ st.out ≠ [] ∧
            stripPy (st.out.getLastD []) ≠ [] then
          { st with out := st.out ++ [line] }
        else st), g) := by
  have hlc : linecommentMatch line = true := by
    unfold linecommentMatch
    rw [hblank]
    decide
  have hnm : ¬ (stripPy line = includesMarker) := by
    rw [hblank]
    decide
  unfold processLine
  rw [if_neg (by simp [hcm]), if_pos (by simpa using hlc)]
  simp only [if_neg hnm]
  have hm2 : includesMarker ≠ [] := by decide
  by_cases hvis : topVis st = some false
  · simp [hvis]
  · by_cases hout1 : st.out = []
    · simp [hvis, hout1, hblank, hnm, hm2]
    · by_cases hout2 : stripPy ((st.out.getLast?).getD []) = []
      · simp [hvis, hout1, hout2, hblank, hnm, hm2]
      · simp [hvis, hout1, hout2, hblank, hnm, hm2]

/-- Witness for the amended C9 theorem: at the start of a file (empty
output) a blank line is dropped. -/
theorem C9_blank_line_collapsing_witness :
    processLine [] (sl "t.h") (fun g _ => .ok ([], g)) (sl "t.h")
        (initLSt, initGst) (sl "\n") =
      .ok ((if topVis initLSt ≠ some false ∧ initLSt.out ≠ [] ∧
            stripPy (initLSt.out.getLastD []) ≠ [] then
          { initLSt with out := initLSt.out ++ [sl "\n"] }
        else initLSt), initGst) :=
  C9_blank_line_collapsing [] (sl "t.h") (fun g _ => .ok ([], g)) (sl "t.h")
    initLSt initGst (sl "\n") (by rfl) (by decide)

/-! ### The exclusion invariant of the branch stack (claim C3) -/

/-- Adjacent exclusion closure: in the stack (leaf first), whenever the
frame below is excluded, the frame above it is excluded too. -/
def ChainExcl (s : List Frame) : Prop :=
  List.Chain' (fun a b => b.vis = some false → a.vis = some false) s

theorem chainExcl_above_excluded :
    ∀ (s1 : List Frame) {s : List Frame} (f : Frame) (s2 : List Frame),
      ChainExcl s → s = s1 ++ f :: s2 → f.vis = some false →
      ∀ x ∈ s1, x.vis = some false := by
  intro s1
  induction s1 with
  | nil => intro s f s2 _ _ _ x hx; exact absurd hx (by simp)
  | cons y t ih =>
    intro s f s2 hc hs hf x hx
    subst hs
    have hc2 : ChainExcl (t ++ f :: s2) := (List.chain'_cons'.mp hc).2
    have htail : ∀ x ∈ t, x.vis = some false := ih f s2 hc2 rfl hf
    rcases List.mem_cons.mp hx with rfl | hxt
    · -- x = y: the head; its lower neighbour is excluded
      have hlink := (List.chain'_cons'.mp hc).1
      cases ht : t with
      | nil =>
        subst ht
        exact hlink f (by simp) hf
      | cons z t2 =>
        subst ht
        exact hlink z (by simp) (htail z (by simp))
    · exact htail x hxt

theorem popDummies_chain (e : Str) :
    ∀ (s : List Frame) (out : List Str) (n : Nat),
      ChainExcl s → ChainExcl (popDummies e s out n).1 := by
  intro s
  induction s with
  | nil => intro out n hc; rw [popDummies]; exact hc
  | cons f fs ih =>
    intro out n hc
    rw [popDummies]
    split
    · exact ih _ _ (List.Chain'.tail hc)
    · exact hc

theorem popDummies_suffix (e : Str) :
    ∀ (s : List Frame) (out : List Str) (n : Nat),
      (popDummies e s out n).1 = s ∨
        ∃ f fs, s = f :: fs ∧ (popDummies e s out n).1 = (popDummies e fs
          (if f.vis = none then out ++ [e] else out) f.openIdx).1 := by
  intro s out n
  cases s with
  | nil => left; rw [popDummies]
  | cons f fs =>
    rw [popDummies]
    split
    · right; exact ⟨f, fs, rfl, rfl⟩
    · left; rfl

theorem chainExcl_cons_cons {a b : Frame} {l : List Frame} :
    ChainExcl (a :: b :: l) ↔
      (b.vis = some false → a.vis = some false) ∧ ChainExcl (b :: l) :=
  List.chain'_cons

theorem elifLink1 (v1 pb : Option Bool)
    (h : (if v1 = none ∧ (if v1 = some false then some false else pb) = none
          then some true else v1) = some false) :
    (if v1 = some false then some false else pb) = some false := by
  by_cases hcnd : v1 = none ∧ (if v1 = some false then some false else pb) = none
  · rw [if_pos hcnd] at h
    exact absurd h (by simp)
  · rw [if_neg hcnd] at h
    rw [if_pos h]

section
attribute [local irreducible] simplify_expression normalize_expression

/-- Chain preservation for the conditional-opening part of
`processDirective` (the `if`/`ifdef`/`ifndef`/`elif` directives,
lines 339-402 of the source). -/
theorem processDirective_push_chain (fd : List (Str × Bool)) (st : LSt)
    (indent : Str) (c : CKind) (value0 comment : Str) (st' : LSt)
    (top : Frame) (rest : List Frame)
    (hc : ChainExcl (top :: rest))
    (h : (let pwv := simplify_expression c value0 fd
          let push_value := pwv.1
          let what := pwv.2.1
          let value := pwv.2.2
          match what with
          | CKind.celif =>
            match rest with
            | [] => Except.error PErr.assertFail
            | parent :: _ =>
              let v1 := if top.vis ≠ none ∧ parent.vis ≠ some false
                then top.vis.map (fun b => !b) else top.vis
              let pv := if v1 = some false then some false else push_value
              let v2 := if v1 = none ∧ pv = none then some true else v1
              let outAdd : List Str :=
                if v1 = none ∧ pv = none then
                  [indent ++ sl "#elif " ++ value ++ comment ++ ['\n']]
                else if v1 = none ∧ pv ≠ none then
                  [indent ++ sl "#else" ++ comment ++ ['\n']]
                else if v1 ≠ none ∧ pv = none then
                  [indent ++ '#' :: kindStr (normalize_expression value).1 ++
                    ' ' :: (normalize_expression value).2 ++ comment ++ ['\n']]
                else []
              Except.ok { st with
                branch_stack :=
                  ⟨true, pv, top.openIdx⟩ :: ⟨false, v2, top.openIdx⟩ :: rest,
                out := st.out ++ outAdd }
          | w =>
            let pv := if top.vis = some false then some false else push_value
            let out' := if pv = none then
                st.out ++ [indent ++ '#' :: kindStr w ++ ' ' :: value ++ comment ++ ['\n']]
              else st.out
            Except.ok { st with
              branch_stack := ⟨true, pv, st.out.length⟩ :: top :: rest,
              out := out' }) = Except.ok st') :
    ChainExcl st'.branch_stack := by
  dsimp only at h
  cases hwhat : (simplify_expression c value0 fd).2.1
  case celif =>
    rw [hwhat] at h
    cases rest with
    | nil =>
      dsimp only at h
      exact absurd h (by simp)
    | cons parent rtail =>
      dsimp only at h
      simp only [Except.ok.injEq] at h
      subst h
      dsimp only
      refine chainExcl_cons_cons.mpr ⟨?_, chainExcl_cons_cons.mpr
        ⟨?_, (chainExcl_cons_cons.mp hc).2⟩⟩
      · intro hv2
        dsimp only at hv2 ⊢
        exact elifLink1 _ _ hv2
      · intro hp
        dsimp only at hp ⊢
        have htop : top.vis = some false := (chainExcl_cons_cons.mp hc).1 hp
        have hv1 : (if top.vis ≠ none ∧ parent.vis ≠ some false
            then Option.map (fun b => !b) top.vis else top.vis) = some false := by
          rw [if_neg (fun hcon => hcon.2 hp), htop]
        rw [hv1]
        simp
  all_goals
    rw [hwhat] at h
    dsimp only at h
    simp only [Except.ok.injEq] at h
    subst h
    exact chainExcl_cons_cons.mpr ⟨fun ht => by dsimp only; rw [if_pos ht], hc⟩

/-- `processDirective` preserves the exclusion chain invariant of the
branch stack. -/
theorem processDirective_chain {fd : List (Str × Bool)} {st : LSt}
    {indent : Str} {k : PpKind} {value0 comment : Str} {st' : LSt}
    (h : processDirective fd st indent k value0 comment = Except.ok st')
    (hc : ChainExcl st.branch_stack) : ChainExcl st'.branch_stack := by
  unfold processDirective at h
  cases hbs : st.branch_stack with
  | nil =>
    rw [hbs] at h
    dsimp only at h
    exact absurd h (by simp)
  | cons top rest =>
    rw [hbs] at h hc
    dsimp only at h
    by_cases hreal : top.isReal ≠ true
    · rw [if_pos hreal] at h
      exact absurd h (by simp)
    · rw [if_neg hreal] at h
      cases k with
      | pif =>
        exact processDirective_push_chain fd st indent CKind.cif value0
          comment st' top rest hc h
      | pifdef =>
        exact processDirective_push_chain fd st indent CKind.cifdef value0
          comment st' top rest hc h
      | pifndef =>
        exact processDirective_push_chain fd st indent CKind.cifndef value0
          comment st' top rest hc h
      | pelif =>
        exact processDirective_push_chain fd st indent CKind.celif value0
          comment st' top rest hc h
      | pelse =>
        dsimp only at h
        cases rest with
        | nil => exact absurd h (by simp)
        | cons parent rtail =>
          dsimp only at h
          simp only [Except.ok.injEq] at h
          subst h
          refine chainExcl_cons_cons.mpr ⟨?_, (chainExcl_cons_cons.mp hc).2⟩
          intro hp
          dsimp only at hp ⊢
          rw [if_pos hp]
      | pendif =>
        dsimp only at h
        cases rest with
        | nil => exact absurd h (by simp)
        | cons parent rtail =>
          dsimp only at h
          have hchain2 := popDummies_chain
            (indent ++ sl "#endif" ++ comment ++ ['\n'])
            (parent :: rtail)
            (if top.vis = none then
              st.out ++ [indent ++ sl "#endif" ++ comment ++ ['\n']]
            else st.out)
            top.openIdx (List.Chain'.tail hc)
          cases hpop : (popDummies (indent ++ sl "#endif" ++ comment ++ ['\n'])
              (parent :: rtail)
              (if top.vis = none then
                st.out ++ [indent ++ sl "#endif" ++ comment ++ ['\n']]
              else st.out)
              top.openIdx).1 with
          | nil =>
            rw [hpop] at h
            dsimp only at h
            exact absurd h (by simp)
          | cons f2 fs2 =>
            rw [hpop] at h
            dsimp only at h
            simp only [Except.ok.injEq] at h
            subst h
            rw [hpop] at hchain2
            exact hchain2

end

theorem normalize_expression_kind_ne (x : Str) :
    (normalize_expression x).1 ≠ CKind.celif := by
  unfold normalize_expression
  rcases matchAloneDefined x with _ | ⟨b, name⟩
  · simp
  · cases b <;> simp

/-- The simplifier changes the directive kind only among
`if`/`ifdef`/`ifndef`: the output kind is `elif` exactly when the input
kind was. -/
theorem simplify_celif_iff (what : CKind) (e : Str) (fd : List (Str × Bool)) :
    (simplify_expression what e fd).2.1 = CKind.celif ↔ what = CKind.celif := by
  cases what <;>
    simp [simplify_expression, denormalize, normalize_expression_kind_ne]

section
attribute [local irreducible] simplify_expression normalize_expression

/-- Exclusion inheritance for the push part of `processDirective`. -/
theorem processDirective_push_excluded_aux (fd : List (Str × Bool)) (st : LSt)
    (indent : Str) (c : CKind) (value0 comment : Str) (st' : LSt)
    (top : Frame) (rest : List Frame)
    (hcne : c ≠ CKind.celif)
    (h : (let pwv := simplify_expression c value0 fd
          let push_value := pwv.1
          let what := pwv.2.1
          let value := pwv.2.2
          match what with
          | CKind.celif =>
            match rest with
            | [] => Except.error PErr.assertFail
            | parent :: _ =>
              let v1 := if top.vis ≠ none ∧ parent.vis ≠ some false
                then top.vis.map (fun b => !b) else top.vis
              let pv := if v1 = some false then some false else push_value
              let v2 := if v1 = none ∧ pv = none then some true else v1
              let outAdd : List Str :=
                if v1 = none ∧ pv = none then
                  [indent ++ sl "#elif " ++ value ++ comment ++ ['\n']]
                else if v1 = none ∧ pv ≠ none then
                  [indent ++ sl "#else" ++ comment ++ ['\n']]
                else if v1 ≠ none ∧ pv = none then
                  [indent ++ '#' :: kindStr (normalize_expression value).1 ++
                    ' ' :: (normalize_expression value).2 ++ comment ++ ['\n']]
                else []
              Except.ok { st with
                branch_stack :=
                  ⟨true, pv, top.openIdx⟩ :: ⟨false, v2, top.openIdx⟩ :: rest,
                out := st.out ++ outAdd }
          | w =>
            let pv := if top.vis = some false then some false else push_value
            let out' := if pv = none then
                st.out ++ [indent ++ '#' :: kindStr w ++ ' ' :: value ++ comment ++ ['\n']]
              else st.out
            Except.ok { st with
              branch_stack := ⟨true, pv, st.out.length⟩ :: top :: rest,
              out := out' }) = Except.ok st')
    (htop : top.vis = some false) :
    topVis st' = some false := by
  dsimp only at h
  cases hwhat : (simplify_expression c value0 fd).2.1
  case celif => exact absurd ((simplify_celif_iff c value0 fd).mp hwhat) hcne
  all_goals
    rw [hwhat] at h
    dsimp only at h
    simp only [Except.ok.injEq] at h
    subst h
    dsimp only [topVis]
    rw [if_pos htop]

/-- A conditional-opening directive scanned while the enclosing leaf frame
is excluded pushes an excluded frame (lines 347-352). -/
theorem processDirective_push_excluded {fd : List (Str × Bool)} {st : LSt}
    {indent : Str} {k : PpKind} {value0 comment : Str} {st' : LSt}
    (hk : k = PpKind.pif ∨ k = PpKind.pifdef ∨ k = PpKind.pifndef)
    (h : processDirective fd st indent k value0 comment = Except.ok st')
    (hexcl : topVis st = some false) :
    topVis st' = some false := by
  unfold processDirective at h
  cases hbs : st.branch_stack with
  | nil =>
    rw [hbs] at h
    dsimp only at h
    exact absurd h (by simp)
  | cons top rest =>
    have htop : top.vis = some false := by
      unfold topVis at hexcl
      rw [hbs] at hexcl
      exact hexcl
    rw [hbs] at h
    dsimp only at h
    by_cases hreal : top.isReal ≠ true
    · rw [if_pos hreal] at h
      exact absurd h (by simp)
    · rw [if_neg hreal] at h
      rcases hk with rfl | rfl | rfl
      · exact processDirective_push_excluded_aux fd st indent CKind.cif value0
          comment st' top rest (by simp) h htop
      · exact processDirective_push_excluded_aux fd st indent CKind.cifdef value0
          comment st' top rest (by simp) h htop
      · exact processDirective_push_excluded_aux fd st indent CKind.cifndef value0
          comment st' top rest (by simp) h htop

/-- An `#else` scanned while the parent frame is excluded leaves the leaf
frame excluded (lines 411-414). -/
theorem processDirective_else_excluded {fd : List (Str × Bool)} {st : LSt}
    {indent : Str} {value0 comment : Str} {st' : LSt}
    {top parent : Frame} {r : List Frame}
    (hbs : st.branch_stack = top :: parent :: r)
    (hpar : parent.vis = some false)
    (h : processDirective fd st indent PpKind.pelse value0 comment =
      Except.ok st') :
    topVis st' = some false := by
  unfold processDirective at h
  rw [hbs] at h
  dsimp only at h
  by_cases hreal : top.isReal ≠ true
  · rw [if_pos hreal] at h
    exact absurd h (by simp)
  · rw [if_neg hreal] at h
    simp only [Except.ok.injEq] at h
    subst h
    dsimp only [topVis]
    rw [if_pos hpar]

/-- An `#elif` scanned while the parent frame is excluded (with the
exclusion chain invariant in force) produces an excluded leaf frame
(lines 356-363). -/
theorem processDirective_elif_excluded {fd : List (Str × Bool)} {st : LSt}
    {indent : Str} {value0 comment : Str} {st' : LSt}
    {top parent : Frame} {r : List Frame}
    (hbs : st.branch_stack = top :: parent :: r)
    (hchain : ChainExcl st.branch_stack)
    (hpar : parent.vis = some false)
    (h : processDirective fd st indent PpKind.pelif value0 comment =
      Except.ok st') :
    topVis st' = some false := by
  unfold processDirective at h
  rw [hbs] at h hchain
  dsimp only at h
  by_cases hreal : top.isReal ≠ true
  · rw [if_pos hreal] at h
    exact absurd h (by simp)
  · rw [if_neg hreal] at h
    rw [show (simplify_expression CKind.celif value0 fd).2.1 = CKind.celif from
      (simplify_celif_iff CKind.celif value0 fd).mpr rfl] at h
    dsimp only at h
    simp only [Except.ok.injEq] at h
    subst h
    dsimp only [topVis]
    have htop : top.vis = some false := (chainExcl_cons_cons.mp hchain).1 hpar
    have hv1 : (if top.vis ≠ none ∧ parent.vis ≠ some false
        then Option.map (fun b => !b) top.vis else top.vis) = some false := by
      rw [if_neg (fun hcon => hcon.2 hpar), htop]
    rw [hv1]
    simp

/-- One scanner step preserves the exclusion chain invariant: only the
preprocessor branch touches the branch stack. -/
theorem processLine_chain {fs : List (Str × List Str)} {toplevel : Str}
    {recur : Gst → Str → Except PErr (List Str × Gst)} {file : Str}
    {st : LSt} {g : Gst} {line : Str} {st' : LSt} {g' : Gst}
    (h : processLine fs toplevel recur file (st, g) line = Except.ok (st', g'))
    (hc : ChainExcl st.branch_stack) : ChainExcl st'.branch_stack := by
  unfold processLine at h
  dsimp only at h
  by_cases hq1 : st.in_comment = true
  case pos =>
    rw [if_pos hq1] at h
    repeat' split at h
    all_goals
      first
      | (simp only [Except.ok.injEq, Prod.mk.injEq] at h
         obtain ⟨h1, h2⟩ := h
         subst h1
         exact hc)
      | exact absurd h (by simp)
  case neg =>
    rw [if_neg hq1] at h
    by_cases hq2 : linecommentMatch line = true
    case pos =>
      rw [if_pos hq2] at h
      repeat' split at h
      all_goals
        first
        | (simp only [Except.ok.injEq, Prod.mk.injEq] at h
           obtain ⟨h1, h2⟩ := h
           subst h1
           exact hc)
        | exact absurd h (by simp)
    case neg =>
      rw [if_neg hq2] at h
      by_cases hq3 : blockStartMatch line = true
      case pos =>
        rw [if_pos hq3] at h
        repeat' split at h
        all_goals
          first
          | (simp only [Except.ok.injEq, Prod.mk.injEq] at h
             obtain ⟨h1, h2⟩ := h
             subst h1
             exact hc)
          | exact absurd h (by simp)
      case neg =>
        rw [if_neg hq3] at h
        repeat' split at h
        all_goals
          first
          | (simp only [Except.ok.injEq, Prod.mk.injEq] at h
             obtain ⟨h1, h2⟩ := h
             subst h1
             first
             | exact hc
             | exact processDirective_chain (by assumption) hc)
          | exact absurd h (by simp)

/-- While the leaf frame is excluded, a non-directive line adds nothing to
the file output nor to the buffered include output (lines 441-445 and the
visibility guards of the comment branches). -/
theorem processLine_excluded_no_emit {fs : List (Str × List Str)}
    {toplevel : Str} {recur : Gst → Str → Except PErr (List Str × Gst)}
    {file : Str} {st : LSt} {g : Gst} {line : Str} {st' : LSt} {g' : Gst}
    (hexcl : topVis st = some false) (hpp : preprocessorMatch line = none)
    (h : processLine fs toplevel recur file (st, g) line = Except.ok (st', g')) :
    st'.out = st.out ∧ st'.includes_out = st.includes_out := by
  unfold processLine at h
  dsimp only at h
  rw [hpp, hexcl] at h
  by_cases hq1 : st.in_comment = true
  case pos =>
    rw [if_pos hq1] at h
    simp only [ne_eq, not_true_eq_false, false_and, if_false, reduceIte] at h
    repeat' split at h
    all_goals
      first
      | (simp only [Except.ok.injEq, Prod.mk.injEq] at h
         obtain ⟨h1, h2⟩ := h
         subst h1
         exact ⟨rfl, rfl⟩)
      | exact absurd h (by simp)
  case neg =>
    rw [if_neg hq1] at h
    by_cases hq2 : linecommentMatch line = true
    case pos =>
      rw [if_pos hq2] at h
      simp only [ne_eq, not_true_eq_false, false_and, if_false, reduceIte] at h
      repeat' split at h
      all_goals
        first
        | (simp only [Except.ok.injEq, Prod.mk.injEq] at h
           obtain ⟨h1, h2⟩ := h
           subst h1
           exact ⟨rfl, rfl⟩)
        | exact absurd h (by simp)
    case neg =>
      rw [if_neg hq2] at h
      by_cases hq3 : blockStartMatch line = true
      case pos =>
        rw [if_pos hq3] at h
        simp only [ne_eq, not_true_eq_false, false_and, if_false, reduceIte] at h
        repeat' split at h
        all_goals
          first
          | (simp only [Except.ok.injEq, Prod.mk.injEq] at h
             obtain ⟨h1, h2⟩ := h
             subst h1
             exact ⟨rfl, rfl⟩)
          | exact absurd h (by simp)
      case neg =>
        rw [if_neg hq3] at h
        simp only [ne_eq, not_true_eq_false, false_and, if_false, reduceIte] at h
        repeat' split at h
        all_goals
          first
          | (simp only [Except.ok.injEq, Prod.mk.injEq] at h
             obtain ⟨h1, h2⟩ := h
             subst h1
             exact ⟨rfl, rfl⟩)
          | exact absurd h (by simp)

/-- The chain invariant is preserved along a whole scanner run. -/
theorem runLines_chain {fs : List (Str × List Str)} {toplevel : Str}
    {recur : Gst → Str → Except PErr (List Str × Gst)} {file : Str} :
    ∀ (lines : List Str) (sg sg' : LSt × Gst),
      runLines fs toplevel recur file sg lines = Except.ok sg' →
      ChainExcl sg.1.branch_stack → ChainExcl sg'.1.branch_stack := by
  intro lines
  induction lines with
  | nil =>
    intro sg sg' h hc
    rw [runLines] at h
    simp only [Except.ok.injEq] at h
    subst h
    exact hc
  | cons line rest ih =>
    rintro ⟨st, g⟩ sg' h hc
    rw [runLines] at h
    cases hpl : processLine fs toplevel recur file (st, g) line with
    | error e =>
      rw [hpl] at h
      exact absurd h (by simp)
    | ok sg2 =>
      rw [hpl] at h
      dsimp only at h
      obtain ⟨st2, g2⟩ := sg2
      exact ih (st2, g2) sg' h (processLine_chain hpl hc)

/-- Every branch stack reached by scanning a file from the initial local
state satisfies: all frames above an excluded frame are excluded. -/
theorem runLines_above_excluded {fs : List (Str × List Str)} {toplevel : Str}
    {recur : Gst → Str → Except PErr (List Str × Gst)} {file : Str} {g : Gst}
    (lines : List Str) (sg' : LSt × Gst)
    (h : runLines fs toplevel recur file (initLSt, g) lines = Except.ok sg') :
    ∀ (s1 : List Frame) (f : Frame) (s2 : List Frame),
      sg'.1.branch_stack = s1 ++ f :: s2 → f.vis = some false →
      ∀ x ∈ s1, x.vis = some false := by
  have hchain : ChainExcl sg'.1.branch_stack :=
    runLines_chain lines (initLSt, g) sg' h (List.chain'_singleton _)
  intro s1 f s2 hdec hf
  exact chainExcl_above_excluded s1 f s2 hchain hdec hf

end

/-- Claim C3: exclusion is inherited and never re-enabled.  (i) A
conditional-opening directive (`if`/`ifdef`/`ifndef`) scanned while the
enclosing leaf frame is Excluded pushes an Excluded frame; (ii) an `#else`
scanned while the parent frame is Excluded leaves the flipped leaf frame
Excluded; (iii) an `#elif` scanned while the parent frame is Excluded
(under the chain invariant) produces an Excluded replacement frame;
(iv) consequently, in every branch stack reachable by scanning lines from
the initial local state, every frame above an Excluded frame is itself
Excluded; and (v) while the leaf frame is Excluded, scanning a
non-directive line adds nothing to the file output or to the buffered
include output. -/
theorem C3_exclusion_inherited :
    (∀ (fd : List (Str × Bool)) (st : LSt) (indent : Str) (k : PpKind)
        (value0 comment : Str) (st' : LSt),
      (k = PpKind.pif ∨ k = PpKind.pifdef ∨ k = PpKind.pifndef) →
      processDirective fd st indent k value0 comment = Except.ok st' →
      topVis st = some false → topVis st' = some false)
    ∧
    (∀ (fd : List (Str × Bool)) (st : LSt) (indent value0 comment : Str)
        (st' : LSt) (top parent : Frame) (r : List Frame),
      st.branch_stack = top :: parent :: r → parent.vis = some false →
      processDirective fd st indent PpKind.pelse value0 comment =
        Except.ok st' →
      topVis st' = some false)
    ∧
    (∀ (fd : List (Str × Bool)) (st : LSt) (indent value0 comment : Str)
        (st' : LSt) (top parent : Frame) (r : List Frame),
      st.branch_stack = top :: parent :: r → ChainExcl st.branch_stack →
      parent.vis = some false →
      processDirective fd st indent PpKind.pelif value0 comment =
        Except.ok st' →
      topVis st' = some false)
    ∧
    (∀ (fs : List (Str × List Str)) (toplevel : Str)
        (recur : Gst → Str → Except PErr (List Str × Gst)) (file : Str)
        (g : Gst) (lines : List Str) (sg' : LSt × Gst),
      runLines fs toplevel recur file (initLSt, g) lines = Except.ok sg' →
      ∀ (s1 : List Frame) (f : Frame) (s2 : List Frame),
        sg'.1.branch_stack = s1 ++ f :: s2 → f.vis = some false →
        ∀ x ∈ s1, x.vis = some false)
    ∧
    (∀ (fs : List (Str × List Str)) (toplevel : Str)
        (recur : Gst → Str → Except PErr (List Str × Gst)) (file : Str)
        (st : LSt) (g : Gst) (line : Str) (st' : LSt) (g' : Gst),
      topVis st = some false → preprocessorMatch line = none →
      processLine fs toplevel recur file (st, g) line = Except.ok (st', g') →
      st'.out = st.out ∧ st'.includes_out = st.includes_out) := by
  refine ⟨?_, ?_, ?_, ?_, ?_⟩
  · intro fd st indent k value0 comment st' hk h hexcl
    exact processDirective_push_excluded hk h hexcl
  · intro fd st indent value0 comment st' top parent r hbs hpar h
    exact processDirective_else_excluded hbs hpar h
  · intro fd st indent value0 comment st' top parent r hbs hchain hpar h
    exact processDirective_elif_excluded hbs hchain hpar h
  · intro fs toplevel recur file g lines sg' h
    exact runLines_above_excluded lines sg' h
  · intro fs toplevel recur file st g line st' g' hexcl hpp h
    exact processLine_excluded_no_emit hexcl hpp h

/-- Concrete instantiations of all five parts of claim C3, with every
hypothesis discharged on explicit states. -/
theorem C3_exclusion_inherited_witness :
    topVis (⟨[], [], false, [], none,
        [⟨true, some false, 0⟩, ⟨true, some false, 0⟩,
          ⟨true, some true, 0⟩]⟩ : LSt) = some false ∧
    topVis (⟨[], [], false, [], none,
        [⟨true, some false, 0⟩, ⟨true, some false, 0⟩,
          ⟨true, some true, 0⟩]⟩ : LSt) = some false ∧
    topVis (⟨[], [], false, [], none,
        [⟨true, some false, 1⟩, ⟨false, some false, 1⟩,
          ⟨true, some false, 0⟩, ⟨true, some true, 0⟩]⟩ : LSt) = some false ∧
    (∀ x ∈ [(⟨true, some false, 0⟩ : Frame)], x.vis = some false) ∧
    ((⟨[], [], false, [], none,
        [⟨true, some false, 0⟩, ⟨true, some true, 0⟩]⟩ : LSt).out =
      (⟨[], [], false, [], none,
        [⟨true, some false, 0⟩, ⟨true, some true, 0⟩]⟩ : LSt).out ∧
      (⟨[], [], false, [], none,
        [⟨true, some false, 0⟩, ⟨true, some true, 0⟩]⟩ : LSt).includes_out =
      (⟨[], [], false, [], none,
        [⟨true, some false, 0⟩, ⟨true, some true, 0⟩]⟩ : LSt).includes_out) := by
  refine ⟨?_, ?_, ?_, ?_, ?_⟩
  · exact C3_exclusion_inherited.1 []
      ⟨[], [], false, [], none,
        [⟨true, some false, 0⟩, ⟨true, some true, 0⟩]⟩
      [] PpKind.pifdef (sl "A") []
      ⟨[], [], false, [], none,
        [⟨true, some false, 0⟩, ⟨true, some false, 0⟩, ⟨true, some true, 0⟩]⟩
      (Or.inr (Or.inl rfl)) (by rfl) (by rfl)
  · exact C3_exclusion_inherited.2.1 []
      ⟨[], [], false, [], none,
        [⟨true, some true, 0⟩, ⟨true, some false, 0⟩, ⟨true, some true, 0⟩]⟩
      [] [] []
      ⟨[], [], false, [], none,
        [⟨true, some false, 0⟩, ⟨true, some false, 0⟩, ⟨true, some true, 0⟩]⟩
      ⟨true, some true, 0⟩ ⟨true, some false, 0⟩ [⟨true, some true, 0⟩]
      rfl rfl (by rfl)
  · exact C3_exclusion_inherited.2.2.1 []
      ⟨[], [], false, [], none,
        [⟨true, some false, 1⟩, ⟨true, some false, 0⟩, ⟨true, some true, 0⟩]⟩
      [] (sl "1") []
      ⟨[], [], false, [], none,
        [⟨true, some false, 1⟩, ⟨false, some false, 1⟩,
          ⟨true, some false, 0⟩, ⟨true, some true, 0⟩]⟩
      ⟨true, some false, 1⟩ ⟨true, some false, 0⟩ [⟨true, some true, 0⟩]
      rfl
      (List.chain'_cons.mpr ⟨fun _ => rfl, List.chain'_cons.mpr
        ⟨fun hX => absurd hX (by simp), List.chain'_singleton _⟩⟩)
      rfl (by rfl)
  · exact C3_exclusion_inherited.2.2.2.1 [] (sl "t.h")
      (fun _ _ => Except.error PErr.fuelOut) (sl "t.h")
      { initGst with forced_defines := [(sl "B", false)] }
      [sl "#ifdef B\n", sl "#ifdef C\n"]
      (⟨[], [], false, [], none,
        [⟨true, some false, 0⟩, ⟨true, some false, 0⟩, ⟨true, some true, 0⟩]⟩,
        { initGst with forced_defines := [(sl "B", false)] })
      (by rfl)
      [⟨true, some false, 0⟩] ⟨true, some false, 0⟩ [⟨true, some true, 0⟩]
      rfl rfl
  · exact C3_exclusion_inherited.2.2.2.2 [] (sl "t.h")
      (fun _ _ => Except.error PErr.fuelOut) (sl "t.h")
      ⟨[], [], false, [], none,
        [⟨true, some false, 0⟩, ⟨true, some true, 0⟩]⟩
      initGst (sl "int x;\n")
      ⟨[], [], false, [], none,
        [⟨true, some false, 0⟩, ⟨true, some true, 0⟩]⟩
      initGst rfl rfl (by rfl)

/-! ### Termination of the recursive include scan (claim C4) -/

/-- The parsed-file set only ever grows. -/
def GstMono (g g' : Gst) : Prop :=
  ∀ p : Str, g.parsed_files.contains p = true →
    g'.parsed_files.contains p = true

/-- The number of file paths of the modelled filesystem not yet in the
parsed-file set: the termination measure of the recursion. -/
def unparsedCount (fs : List (Str × List Str)) (g : Gst) : Nat :=
  ((fs.map Prod.fst).filter (fun p => ! g.parsed_files.contains p)).length

theorem addSet_mono {l : List Str} {x p : Str} (h : l.contains p = true) :
    (addSet l x).contains p = true := by
  unfold addSet
  split
  · exact h
  · simp at h ⊢
    exact Or.inl h

theorem addSet_contains_self (l : List Str) (x : Str) :
    (addSet l x).contains x = true := by
  unfold addSet
  split
  · assumption
  · simp

theorem filter_length_mono {α : Type} (l : List α) (p q : α → Bool)
    (h : ∀ x, q x = true → p x = true) :
    (l.filter q).length ≤ (l.filter p).length := by
  induction l with
  | nil => simp
  | cons a t ih =>
    simp only [List.filter_cons]
    by_cases hq : q a = true
    · rw [if_pos hq, if_pos (h a hq)]
      simpa using ih
    · rw [if_neg hq]
      by_cases hp : p a = true
      · rw [if_pos hp]
        simp only [List.length_cons]
        exact Nat.le_succ_of_le ih
      · rw [if_neg hp]
        exact ih

theorem filter_length_lt {α : Type} (l : List α) (p q : α → Bool)
    (h : ∀ x, q x = true → p x = true) (x0 : α) (hmem : x0 ∈ l)
    (hp : p x0 = true) (hq : q x0 = false) :
    (l.filter q).length < (l.filter p).length := by
  induction l with
  | nil => cases hmem
  | cons a t ih =>
    simp only [List.filter_cons]
    rcases List.mem_cons.mp hmem with rfl | hmemt
    · rw [if_neg (by simp [hq]), if_pos hp]
      simp only [List.length_cons]
      exact Nat.lt_succ_of_le (filter_length_mono t p q h)
    · by_cases hqa : q a = true
      · rw [if_pos hqa, if_pos (h a hqa)]
        simpa using ih hmemt
      · rw [if_neg hqa]
        by_cases hpa : p a = true
        · rw [if_pos hpa]
          exact Nat.lt_succ_of_lt (ih hmemt)
        · rw [if_neg hpa]
          exact ih hmemt

theorem unparsedCount_mono {fs : List (Str × List Str)} {g g' : Gst}
    (h : GstMono g g') : unparsedCount fs g' ≤ unparsedCount fs g := by
  refine filter_length_mono _ _ _ ?_
  intro x hx
  simp only [Bool.not_eq_true'] at hx ⊢
  cases hgx : g.parsed_files.contains x
  · rfl
  · rw [h x hgx] at hx
    exact absurd hx (by decide)

theorem unparsedCount_addSet_lt {fs : List (Str × List Str)} {g : Gst}
    {file : Str}
    (hnc : g.parsed_files.contains file = false)
    (hmem : file ∈ fs.map Prod.fst) :
    unparsedCount fs { g with parsed_files := addSet g.parsed_files file } <
      unparsedCount fs g := by
  refine filter_length_lt _ _ _ ?_ file hmem ?_ ?_
  · intro x hx
    simp only [Bool.not_eq_true'] at hx ⊢
    cases hgx : g.parsed_files.contains x
    · rfl
    · rw [addSet_mono hgx] at hx
      exact absurd hx (by decide)
  · rw [hnc]
    decide
  · rw [addSet_contains_self]
    decide

theorem lookupFile_isSome_mem {fs : List (Str × List Str)} {q : Str}
    (h : (lookupFile fs q).isSome = true) : q ∈ fs.map Prod.fst := by
  induction fs with
  | nil => simp [lookupFile] at h
  | cons e rest ih =>
    obtain ⟨p, ls⟩ := e
    rw [lookupFile] at h
    by_cases hpq : p = q
    · subst hpq
      simp
    · rw [if_neg hpq] at h
      simp only [List.map_cons, List.mem_cons]
      exact Or.inr (ih h)

section
attribute [local irreducible] simplify_expression normalize_expression

/-- `processDirective` never signals fuel exhaustion: its only failure
mode is an assertion failure. -/
theorem processDirective_no_fuelOut {fd : List (Str × Bool)} {st : LSt}
    {indent : Str} {k : PpKind} {value0 comment : Str} :
    processDirective fd st indent k value0 comment ≠
      Except.error PErr.fuelOut := by
  intro h
  unfold processDirective at h
  dsimp only at h
  repeat' split at h
  all_goals exact absurd h (by simp)

/-- One scanner step on a state with an unparsed-count bound never signals
fuel exhaustion, provided the recursive scan does not on smaller states. -/
theorem processLine_no_fuelOut {fs : List (Str × List Str)} {toplevel : Str}
    {recur : Gst → Str → Except PErr (List Str × Gst)} {file : Str}
    {st : LSt} {g : Gst} {line : Str} {M : Nat}
    (hrecOk : ∀ (g2 : Gst) (abs : Str),
      g2.parsed_files.contains abs = false →
      (lookupFile fs abs).isSome = true → unparsedCount fs g2 ≤ M →
      recur g2 abs ≠ Except.error PErr.fuelOut)
    (hcount : unparsedCount fs g ≤ M) :
    processLine fs toplevel recur file (st, g) line ≠
      Except.error PErr.fuelOut := by
  intro h
  unfold processLine at h
  dsimp only at h
  by_cases hq1 : st.in_comment = true
  case pos =>
    rw [if_pos hq1] at h
    repeat' split at h
    all_goals exact absurd h (by simp)
  case neg =>
    rw [if_neg hq1] at h
    by_cases hq2 : linecommentMatch line = true
    case pos =>
      rw [if_pos hq2] at h
      repeat' split at h
      all_goals exact absurd h (by simp)
    case neg =>
      rw [if_neg hq2] at h
      by_cases hq3 : blockStartMatch line = true
      case pos =>
        rw [if_pos hq3] at h
        repeat' split at h
        all_goals exact absurd h (by simp)
      case neg =>
        rw [if_neg hq3] at h
        repeat' split at h
        all_goals try (simp at h; done)
        all_goals simp only [Except.error.injEq] at h
        all_goals subst h
        all_goals rename_i heq
        all_goals
          first
          | exact processDirective_no_fuelOut heq
          | (rename_i hres hcon hscrut
             refine hrecOk _ _ ?_ ?_ hcount heq
             · rw [← Bool.not_eq_true]
               exact hcon
             · repeat' split at hres
               all_goals
                 first
                 | (rename_i hfind
                    simp only [Except.ok.injEq] at hres
                    subst hres
                    first
                    | assumption
                    | (have hfs := List.find?_some hfind
                       exact hfs))
                 | exact absurd hres (by simp))
          | (repeat' split at heq
             all_goals simp at heq)

/-- One scanner step only grows the parsed-file set. -/
theorem processLine_gmono {fs : List (Str × List Str)} {toplevel : Str}
    {recur : Gst → Str → Except PErr (List Str × Gst)} {file : Str}
    {st : LSt} {g : Gst} {line : Str} {st' : LSt} {g' : Gst}
    (hrecMono : ∀ (g2 : Gst) (abs : Str) (lg : List Str × Gst),
      recur g2 abs = Except.ok lg → GstMono g2 lg.2)
    (h : processLine fs toplevel recur file (st, g) line =
      Except.ok (st', g')) :
    GstMono g g' := by
  unfold processLine at h
  dsimp only at h
  by_cases hq1 : st.in_comment = true
  case pos =>
    rw [if_pos hq1] at h
    repeat' split at h
    all_goals
      first
      | (simp only [Except.ok.injEq, Prod.mk.injEq] at h
         obtain ⟨h1, h2⟩ := h
         subst h2
         exact fun p hp => hp)
      | exact absurd h (by simp)
  case neg =>
    rw [if_neg hq1] at h
    by_cases hq2 : linecommentMatch line = true
    case pos =>
      rw [if_pos hq2] at h
      repeat' split at h
      all_goals
        first
        | (simp only [Except.ok.injEq, Prod.mk.injEq] at h
           obtain ⟨h1, h2⟩ := h
           subst h2
           exact fun p hp => hp)
        | exact absurd h (by simp)
    case neg =>
      rw [if_neg hq2] at h
      by_cases hq3 : blockStartMatch line = true
      case pos =>
        rw [if_pos hq3] at h
        repeat' split at h
        all_goals
          first
          | (simp only [Except.ok.injEq, Prod.mk.injEq] at h
             obtain ⟨h1, h2⟩ := h
             subst h2
             exact fun p hp => hp)
          | exact absurd h (by simp)
      case neg =>
        rw [if_neg hq3] at h
        repeat' split at h
        all_goals
          first
          | (simp only [Except.ok.injEq, Prod.mk.injEq] at h
             obtain ⟨h1, h2⟩ := h
             subst h2
             first
             | exact fun p hp => hp
             | exact hrecMono _ _ _ (by assumption))
          | exact absurd h (by simp)

end

/-- A whole scanner run only grows the parsed-file set. -/
theorem runLines_gmono {fs : List (Str × List Str)} {toplevel : Str}
    {recur : Gst → Str → Except PErr (List Str × Gst)} {file : Str}
    (hrecMono : ∀ (g2 : Gst) (abs : Str) (lg : List Str × Gst),
      recur g2 abs = Except.ok lg → GstMono g2 lg.2) :
    ∀ (lines : List Str) (st : LSt) (g : Gst) (sg' : LSt × Gst),
      runLines fs toplevel recur file (st, g) lines = Except.ok sg' →
      GstMono g sg'.2 := by
  intro lines
  induction lines with
  | nil =>
    intro st g sg' h
    rw [runLines] at h
    simp only [Except.ok.injEq] at h
    subst h
    exact fun p hp => hp
  | cons line rest ih =>
    intro st g sg' h
    rw [runLines] at h
    cases hpl : processLine fs toplevel recur file (st, g) line with
    | error e =>
      rw [hpl] at h
      exact absurd h (by simp)
    | ok sg2 =>
      rw [hpl] at h
      dsimp only at h
      obtain ⟨st2, g2⟩ := sg2
      intro p hp
      exact ih st2 g2 sg' h p (processLine_gmono hrecMono hpl p hp)

/-- A recursive file scan only grows the parsed-file set. -/
theorem parseFile_gmono (fs : List (Str × List Str)) (toplevel : Str) :
    ∀ (fuel : Nat) (g : Gst) (file : Str) (lg : List Str × Gst),
      parseFile fs toplevel fuel g file = Except.ok lg → GstMono g lg.2 := by
  intro fuel
  induction fuel with
  | zero =>
    intro g file lg h
    rw [parseFile] at h
    exact absurd h (by simp)
  | succ fuel ih =>
    intro g file lg h
    rw [parseFile] at h
    cases hlf : lookupFile fs file with
    | none =>
      rw [hlf] at h
      exact absurd h (by simp)
    | some lines =>
      rw [hlf] at h
      dsimp only at h
      cases hrun : runLines fs toplevel (parseFile fs toplevel fuel) file
          (initLSt, { g with parsed_files := addSet g.parsed_files file })
          lines with
      | error e =>
        rw [hrun] at h
        exact absurd h (by simp)
      | ok sg =>
        rw [hrun] at h
        dsimp only at h
        by_cases hlen : sg.1.branch_stack.length = 1
        · rw [if_pos hlen] at h
          simp only [Except.ok.injEq] at h
          subst h
          intro p hp
          exact runLines_gmono ih lines initLSt
            { g with parsed_files := addSet g.parsed_files file } sg hrun p
            (addSet_mono hp)
        · rw [if_neg hlen] at h
          exact absurd h (by simp)

/-- A whole scanner run never signals fuel exhaustion, provided the
recursive scan does not on states with at most the given unparsed count. -/
theorem runLines_no_fuelOut {fs : List (Str × List Str)} {toplevel : Str}
    {recur : Gst → Str → Except PErr (List Str × Gst)} {file : Str} {M : Nat}
    (hrecOk : ∀ (g2 : Gst) (abs : Str),
      g2.parsed_files.contains abs = false →
      (lookupFile fs abs).isSome = true → unparsedCount fs g2 ≤ M →
      recur g2 abs ≠ Except.error PErr.fuelOut)
    (hrecMono : ∀ (g2 : Gst) (abs : Str) (lg : List Str × Gst),
      recur g2 abs = Except.ok lg → GstMono g2 lg.2) :
    ∀ (lines : List Str) (st : LSt) (g : Gst),
      unparsedCount fs g ≤ M →
      runLines fs toplevel recur file (st, g) lines ≠
        Except.error PErr.fuelOut := by
  intro lines
  induction lines with
  | nil =>
    intro st g _ h
    rw [runLines] at h
    exact absurd h (by simp)
  | cons line rest ih =>
    intro st g hcount h
    rw [runLines] at h
    cases hpl : processLine fs toplevel recur file (st, g) line with
    | error e =>
      rw [hpl] at h
      dsimp only at h
      simp only [Except.error.injEq] at h
      subst h
      exact processLine_no_fuelOut hrecOk hcount hpl
    | ok sg2 =>
      rw [hpl] at h
      dsimp only at h
      obtain ⟨st2, g2⟩ := sg2
      refine ih st2 g2 ?_ h
      exact le_trans (unparsedCount_mono (processLine_gmono hrecMono hpl))
        hcount

/-- With fuel bounding the number of not-yet-parsed files, the recursive
scan of an unparsed existing file never exhausts its fuel. -/
theorem parseFile_no_fuelOut (fs : List (Str × List Str)) (toplevel : Str) :
    ∀ (fuel : Nat) (g : Gst) (file : Str),
      g.parsed_files.contains file = false →
      (lookupFile fs file).isSome = true →
      unparsedCount fs g ≤ fuel →
      parseFile fs toplevel fuel g file ≠ Except.error PErr.fuelOut := by
  intro fuel
  induction fuel with
  | zero =>
    intro g file hnc hsome hcount
    have hmem := lookupFile_isSome_mem hsome
    have hin : file ∈ (fs.map Prod.fst).filter
        (fun p => ! g.parsed_files.contains p) :=
      List.mem_filter.mpr ⟨hmem, by rw [hnc]; decide⟩
    have hlen : 0 < unparsedCount fs g := List.length_pos_of_mem hin
    omega
  | succ fuel ih =>
    intro g file hnc hsome hcount h
    rw [parseFile] at h
    cases hlf : lookupFile fs file with
    | none =>
      rw [hlf] at h
      exact absurd h (by simp)
    | some lines =>
      rw [hlf] at h
      dsimp only at h
      have hmem := lookupFile_isSome_mem hsome
      have hlt : unparsedCount fs
          { g with parsed_files := addSet g.parsed_files file } <
          unparsedCount fs g := unparsedCount_addSet_lt hnc hmem
      cases hrun : runLines fs toplevel (parseFile fs toplevel fuel) file
          (initLSt, { g with parsed_files := addSet g.parsed_files file })
          lines with
      | error e =>
        rw [hrun] at h
        dsimp only at h
        simp only [Except.error.injEq] at h
        subst h
        exact runLines_no_fuelOut (fun g2 abs h1 h2 h3 => ih g2 abs h1 h2 h3)
          (fun g2 abs lg hh => parseFile_gmono fs toplevel fuel g2 abs lg hh)
          lines initLSt _ (by omega) hrun
      | ok sg =>
        rw [hrun] at h
        dsimp only at h
        by_cases hlen : sg.1.branch_stack.length = 1
        · rw [if_pos hlen] at h
          exact absurd h (by simp)
        · rw [if_neg hlen] at h
          exact absurd h (by simp)

/-- The top-level parse, with its fuel of `fs.length + 1`, never exhausts
its fuel. -/
theorem parse_no_fuelOut (fs : List (Str × List Str)) (toplevel : Str) :
    parse fs toplevel ≠ Except.error PErr.fuelOut := by
  intro h
  unfold parse at h
  cases hlf : lookupFile fs toplevel with
  | none =>
    rw [parseFile] at h
    rw [hlf] at h
    dsimp only at h
    exact absurd h (by simp)
  | some lines =>
    refine parseFile_no_fuelOut fs toplevel (fs.length + 1) initGst toplevel
      rfl ?_ ?_ h
    · rw [hlf]
      rfl
    · calc unparsedCount fs initGst ≤ (fs.map Prod.fst).length :=
        List.length_filter_le _ _
      _ = fs.length := by simp
      _ ≤ fs.length + 1 := Nat.le_succ _

/-- Claim C4: an include cycle does not make the scan recurse forever.
(i) For the concrete cycle `a.h` includes `b.h` includes `a.h`, the parse
succeeds with output `int b;` then `int a;`, and (ii) each file's content
line appears exactly once in the assembled output; (iii) a successful scan
of a file leaves that file in the parsed-file set (it is added at the
start of the scan, which is what makes a second encounter of the same path
inert); and (iv) for every filesystem and top-level file the scan, whose
fuel is one more than the number of files, never exhausts its fuel. -/
theorem C4_cycle_termination :
    (parse
        [(sl "a.h", [sl "#include \"b.h\"\n", sl "int a;\n"]),
          (sl "b.h", [sl "#include \"a.h\"\n", sl "int b;\n"])]
        (sl "a.h")).toOption.map Prod.fst =
      some [sl "int b;\n", sl "int a;\n"] ∧
    (parse
        [(sl "a.h", [sl "#include \"b.h\"\n", sl "int a;\n"]),
          (sl "b.h", [sl "#include \"a.h\"\n", sl "int b;\n"])]
        (sl "a.h")).toOption.map
        (fun lg => (lg.1.count (sl "int a;\n"), lg.1.count (sl "int b;\n"))) =
      some (1, 1) ∧
    (∀ (fs : List (Str × List Str)) (toplevel : Str) (fuel : Nat) (g : Gst)
        (file : Str) (lg : List Str × Gst),
      parseFile fs toplevel fuel g file = Except.ok lg →
      lg.2.parsed_files.contains file = true) ∧
    (∀ (fs : List (Str × List Str)) (toplevel : Str),
      parse fs toplevel ≠ Except.error PErr.fuelOut) := by
  refine ⟨by rfl, by rfl, ?_, ?_⟩
  · intro fs toplevel fuel g file lg h
    cases fuel with
    | zero =>
      rw [parseFile] at h
      exact absurd h (by simp)
    | succ fuel =>
      rw [parseFile] at h
      cases hlf : lookupFile fs file with
      | none =>
        rw [hlf] at h
        exact absurd h (by simp)
      | some lines =>
        rw [hlf] at h
        dsimp only at h
        cases hrun : runLines fs toplevel (parseFile fs toplevel fuel) file
            (initLSt, { g with parsed_files := addSet g.parsed_files file })
            lines with
        | error e =>
          rw [hrun] at h
          exact absurd h (by simp)
        | ok sg =>
          rw [hrun] at h
          dsimp only at h
          by_cases hlen : sg.1.branch_stack.length = 1
          · rw [if_pos hlen] at h
            simp only [Except.ok.injEq] at h
            subst h
            exact runLines_gmono (parseFile_gmono fs toplevel fuel) lines
              initLSt { g with parsed_files := addSet g.parsed_files file }
              sg hrun file (addSet_contains_self _ _)
          · rw [if_neg hlen] at h
            exact absurd h (by simp)
  · intro fs toplevel
    exact parse_no_fuelOut fs toplevel

/-- Concrete instantiations of parts (iii) and (iv) of claim C4: scanning
a one-file filesystem marks the file parsed, and the parse of the empty
filesystem does not exhaust its fuel. -/
theorem C4_cycle_termination_witness :
    ({ initGst with parsed_files := [sl "t.h"] } : Gst).parsed_files.contains
      (sl "t.h") = true ∧
    parse [] (sl "t.h") ≠ Except.error PErr.fuelOut := by
  constructor
  · exact C4_cycle_termination.2.2.1 [(sl "t.h", [sl "x\n"])] (sl "t.h") 1
      initGst (sl "t.h")
      ([sl "x\n"], { initGst with parsed_files := [sl "t.h"] }) (by rfl)
  · exact C4_cycle_termination.2.2.2 [] (sl "t.h")

end Acme
